import Mathlib

/-!
Verification of the GPy parameter-hierarchy core
(`GPy/core/parameterization/parameter_core.py` and
`GPy/core/parameterization/parameterized.py`).

The development shallowly embeds the data model and the operations the
claims need.  Numeric values are rationals (`Val := ℚ`), numpy vectors are
`List Val`, the boolean fix mask is `Option (List Bool)` (with `true` =
UNFIXED/free and `false` = FIXED, and `none` meaning "nothing fixed"), and
an index-operations store is an association list from a property to its
index set.  The files `index_operations.py`, `transformations.py` and
`param.py` are not part of the sources; the few operations of theirs that
are needed (store add/remove/shift/clear/copy, the fixed sentinel, the
abstract transform functions) are modelled from the specification and
are marked as such in their doc comments.
-/

abbrev Val := ℚ

namespace GPyObs

/-- An entry of `Observable._observer_callables_`: the `(priority,
observer, callble)` triple, with observer and callback identified by ids. -/
structure Entry where
  pri : Int
  obs : Nat
  cb : Nat
deriving DecidableEq, Repr

/-- Embeds `Observable._notify_observers` (parameter_core.py, lines 39-59):
with `min_priority = None` every callback is invoked in list order; otherwise
the loop breaks at the first entry whose priority is `≤ min_priority`.
The result is the list of invoked callback ids, in invocation order. -/
def notify_observers (l : List Entry) (minP : Option Int) : List Nat :=
  match minP with
  | none => l.map (fun e => e.cb)
  | some m => (l.takeWhile (fun e => decide (m < e.pri))).map (fun e => e.cb)

/-- Embeds the insertion-point loop of `Observable._insert_sorted`
(parameter_core.py, lines 61-67): `ins` counts entries until the first one
whose priority is strictly below the new priority. -/
def ins_pos (p : Int) : List Entry → Nat
  | [] => 0
  | e :: rest => if e.pri < p then 0 else ins_pos p rest + 1

/-- Python `list.insert(i, x)`: insert at `i`, clamping to append when `i`
is past the end. -/
def pyInsertE (l : List Entry) (i : Nat) (e : Entry) : List Entry :=
  l.take i ++ e :: l.drop i

/-- Embeds `Observable._insert_sorted` (parameter_core.py, lines 61-67). -/
def insert_sorted (p : Int) (o c : Nat) (l : List Entry) : List Entry :=
  pyInsertE l (ins_pos p l) ⟨p, o, c⟩

/-- Embeds `Observable.add_observer` (parameter_core.py, lines 24-25). -/
def add_observer (l : List Entry) (o c : Nat) (p : Int) : List Entry :=
  insert_sorted p o c l

/-- The subscription list sorted by descending priority. -/
abbrev sortedDesc (l : List Entry) : Prop :=
  l.Pairwise (fun a b => b.pri ≤ a.pri)

theorem takeWhile_eq_filter_of_sorted (m : Int) (l : List Entry)
    (hs : sortedDesc l) :
    l.takeWhile (fun e => decide (m < e.pri))
      = l.filter (fun e => decide (m < e.pri)) := by
  induction l with
  | nil => rfl
  | cons a t ih =>
    rcases List.pairwise_cons.mp hs with ⟨ha, ht⟩
    by_cases h : m < a.pri
    · simp [List.takeWhile_cons, List.filter_cons, h, ih ht]
    · have hall : ∀ e ∈ t, ¬ ((fun e : Entry => decide (m < e.pri)) e = true) := by
        intro e he
        simp only [decide_eq_true_eq]
        intro hlt
        exact h (lt_of_lt_of_le hlt (ha e he))
      simp only [List.takeWhile_cons, List.filter_cons, decide_eq_true_eq, h,
        if_false]
      exact (List.filter_eq_nil_iff.mpr hall).symm

/-- C7: for a descending-sorted observer list, `_notify_observers` with a
`min_priority` invokes, in order, exactly the callbacks whose priority is
strictly greater than `min_priority` (the break makes the scan a prefix,
which on a sorted list coincides with the filter); with `min_priority`
omitted it invokes every callback in list order. -/
theorem notify_observers_spec (l : List Entry) (m : Int)
    (hs : sortedDesc l) :
    notify_observers l (some m)
        = (l.filter (fun e => decide (m < e.pri))).map (fun e => e.cb)
      ∧ notify_observers l none = l.map (fun e => e.cb) := by
  refine ⟨?_, rfl⟩
  show (l.takeWhile (fun e => decide (m < e.pri))).map (fun e => e.cb) = _
  rw [takeWhile_eq_filter_of_sorted m l hs]

/-- The observer list of the spec's notification-ordering scenario:
priorities `[5, 0, -100]`. -/
def obsDemo : List Entry := [⟨5, 0, 0⟩, ⟨0, 1, 1⟩, ⟨-100, 2, 2⟩]

/-- Witness for C7: with observers at priorities `[5, 0, -100]`,
`min_priority = -50` invokes only the first two callbacks, and omitting
`min_priority` invokes all three in order. -/
theorem notify_observers_spec_witness :
    notify_observers obsDemo (some (-50)) = [0, 1]
      ∧ notify_observers obsDemo none = [0, 1, 2] := by
  have h := notify_observers_spec obsDemo (-50) (by decide)
  exact ⟨h.1.trans (by decide), h.2.trans (by decide)⟩

/-- C8 counterexample: registering observer 0 and then observer 1, both at
priority 0, leaves the later registration *after* the earlier one
(`_insert_sorted` walks past entries of equal priority), contradicting the
claim that a new entry is placed before existing entries of equal
priority. -/
theorem insert_sorted_tie_after_cex :
    insert_sorted 0 1 1 (insert_sorted 0 0 0 [])
        = [⟨0, 0, 0⟩, ⟨0, 1, 1⟩]
      ∧ insert_sorted 0 1 1 (insert_sorted 0 0 0 [])
        ≠ [⟨0, 1, 1⟩, ⟨0, 0, 0⟩] := by
  decide

/-- C8 amended: every `add_observer` insertion into a descending-sorted
list keeps the list descending-sorted, and the new entry is placed after
all existing entries of priority `≥ p` (so ties keep registration order,
the new entry coming after existing equal-priority entries). -/
theorem insert_sorted_spec (p : Int) (o c : Nat) (l : List Entry)
    (hs : sortedDesc l) :
    insert_sorted p o c l
        = l.takeWhile (fun e => decide (p ≤ e.pri))
            ++ ⟨p, o, c⟩ :: l.dropWhile (fun e => decide (p ≤ e.pri))
      ∧ sortedDesc (insert_sorted p o c l) := by
  have hsplit : ∀ l' : List Entry,
      insert_sorted p o c l'
        = l'.takeWhile (fun e => decide (p ≤ e.pri))
            ++ ⟨p, o, c⟩ :: l'.dropWhile (fun e => decide (p ≤ e.pri)) := by
    intro l'
    induction l' with
    | nil => rfl
    | cons a t ih =>
      by_cases h : a.pri < p
      · have hp : ¬ (p ≤ a.pri) := not_le.mpr h
        simp [insert_sorted, pyInsertE, ins_pos, List.takeWhile_cons,
          List.dropWhile_cons, h, hp]
      · have hp : p ≤ a.pri := not_lt.mp h
        simp only [insert_sorted, pyInsertE, ins_pos, h, if_false,
          List.takeWhile_cons, List.dropWhile_cons, decide_eq_true_eq, hp,
          if_true, List.take_succ_cons, List.drop_succ_cons, List.cons_append]
        simpa [insert_sorted, pyInsertE] using ih
  refine ⟨hsplit l, ?_⟩
  rw [hsplit l]
  show List.Pairwise (fun a b : Entry => b.pri ≤ a.pri)
    (l.takeWhile (fun e => decide (p ≤ e.pri))
      ++ ⟨p, o, c⟩ :: l.dropWhile (fun e => decide (p ≤ e.pri)))
  rw [List.pairwise_append]
  refine ⟨?_, ?_, ?_⟩
  · exact List.Pairwise.sublist (List.takeWhile_sublist _) hs
  · rw [List.pairwise_cons]
    constructor
    · intro b hb
      rcases hd : l.dropWhile (fun e => decide (p ≤ e.pri)) with _ | ⟨h0, td⟩
      · rw [hd] at hb; exact absurd hb (List.not_mem_nil b)
      · have h0lt : ¬ (p ≤ h0.pri) := by
          have := List.head?_dropWhile_not (fun e : Entry => decide (p ≤ e.pri)) l
          rw [hd] at this
          simpa using this
        have hsd : sortedDesc (l.dropWhile (fun e => decide (p ≤ e.pri))) :=
          List.Pairwise.sublist (List.dropWhile_sublist _) hs
        rw [hd] at hsd
        rcases List.pairwise_cons.mp hsd with ⟨hh, _⟩
        rw [hd] at hb
        rcases List.mem_cons.mp hb with rfl | hbt
        · exact le_of_lt (not_le.mp h0lt)
        · exact le_trans (hh b hbt) (le_of_lt (not_le.mp h0lt))
    · exact List.Pairwise.sublist (List.dropWhile_sublist _) hs
  · intro a ha b hb
    have hap : p ≤ a.pri := by
      have := List.mem_takeWhile_imp ha
      simpa using this
    rcases List.mem_cons.mp hb with rfl | hbd
    · exact hap
    · have hbmem : b ∈ l.dropWhile (fun e => decide (p ≤ e.pri)) := hbd
      rcases hd : l.dropWhile (fun e => decide (p ≤ e.pri)) with _ | ⟨h0, td⟩
      · rw [hd] at hbmem; exact absurd hbmem (List.not_mem_nil b)
      · have h0lt : ¬ (p ≤ h0.pri) := by
          have := List.head?_dropWhile_not (fun e : Entry => decide (p ≤ e.pri)) l
          rw [hd] at this
          simpa using this
        have hsd : sortedDesc (l.dropWhile (fun e => decide (p ≤ e.pri))) :=
          List.Pairwise.sublist (List.dropWhile_sublist _) hs
        rw [hd] at hsd
        rcases List.pairwise_cons.mp hsd with ⟨hh, _⟩
        rw [hd] at hbmem
        have hble : b.pri ≤ h0.pri := by
          rcases List.mem_cons.mp hbmem with rfl | hbt
          · exact le_refl _
          · exact hh b hbt
        exact le_trans hble (le_trans (le_of_lt (not_le.mp h0lt)) hap)

/-- Witness for C8's amended statement at priority 0 inserted over an
existing equal-priority entry. -/
theorem insert_sorted_spec_witness :
    insert_sorted 0 1 1 [⟨0, 0, 0⟩]
        = [⟨0, 0, 0⟩].takeWhile (fun e => decide ((0:Int) ≤ e.pri))
            ++ ⟨0, 1, 1⟩ :: [⟨0, 0, 0⟩].dropWhile (fun e => decide ((0:Int) ≤ e.pri))
      ∧ sortedDesc (insert_sorted 0 1 1 [⟨0, 0, 0⟩]) :=
  insert_sorted_spec 0 1 1 [⟨0, 0, 0⟩] (by decide)

end GPyObs

namespace GPyFlat

/-- A property key of the constraints index store: the `__fixed__` sentinel
or a value transform identified by id (the concrete transform objects live
in the out-of-scope transformations module). -/
inductive CProp where
  | fixedP : CProp
  | transform (id : Nat) : CProp
deriving DecidableEq, Repr

/-- Modelled from the spec: the interface of a value-transform object
(`transformations.py` is not among the sources): elementwise forward `f`,
inverse `finv`, `gradfactor`, and (as `tinit`) the value-initialisation hook
that `constrain` invokes on the raw values. -/
structure TransformFuns where
  f : Val → Val
  finv : Val → Val
  gradfactor : Val → Val
  tinit : Val → Val

/-- Environment resolving a transform id to its functions. -/
abbrev TEnv := Nat → TransformFuns

/-- Modelled from the spec: an index-operations store
(`index_operations.ParameterIndexOperations`, not among the sources): an
association list from a property to its recorded set of flat indices. -/
abbrev IndexStore (κ : Type) := List (κ × List Nat)

/-- Store lookup `store[prop]`: all indices recorded for a property. -/
def getIdx {κ : Type} [DecidableEq κ] (st : IndexStore κ) (p : κ) : List Nat :=
  ((st.filter (fun ci => decide (ci.1 = p))).map (fun ci => ci.2)).flatten

/-- numpy gather `p[ind]` (out-of-range indices read 0; unused under the
bounds invariant). -/
def npGet (p : List Val) (ind : List Nat) : List Val :=
  ind.map (fun i => p.getD i 0)

/-- numpy `np.put(p, ind, vals)`: successive writes of `vals` at `ind`. -/
def npPut (p : List Val) (ind : List Nat) (vals : List Val) : List Val :=
  (ind.zip vals).foldl (fun acc iv => acc.set iv.1 iv.2) p

/-- The `np.put(p, ind, g(p[ind]))` elementwise-update pattern used by the
transform pipelines. -/
def npPutApp (p : List Val) (ind : List Nat) (g : Val → Val) : List Val :=
  npPut p ind ((npGet p ind).map g)

/-- Boolean-mask selection `p[m]` (numpy fancy indexing; `true` selects). -/
def maskSelect (p : List Val) (m : List Bool) : List Val :=
  ((p.zip m).filter (fun x => x.2)).map (fun x => x.1)

/-- Boolean-mask assignment `tmp[m] = v`: scatter `v` into the `true`
positions of `tmp`, in order. -/
def maskScatter : List Val → List Bool → List Val → List Val
  | [], _, _ => []
  | t :: ts, [], _ => t :: ts
  | _ :: ts, true :: ms, v :: vs => v :: maskScatter ts ms vs
  | t :: ts, true :: ms, [] => t :: maskScatter ts ms []
  | t :: ts, false :: ms, vs => t :: maskScatter ts ms vs

/-- The flat state of an `OptimizationHandlable` node: the concatenated raw
leaf values (what `_get_params` returns), the node's `size`, its
constraints store, the fix mask `_fixes_` (`true` = UNFIXED), the parent
flag, and the tied-index pairs (master, source) contributed by the tie
machinery of the out-of-scope param module. -/
structure PState where
  params : List Val
  size : Nat
  constraints : IndexStore CProp
  fixes : Option (List Bool)
  hasParentB : Bool
  ties : List (Nat × Nat)

/-- One transform pipeline: the comprehension
`np.put(p, ind, c.fn(p[ind])) for c, ind in constraints.iteritems() if c != fixed`
shared by `_get_params_transformed` (with `finv`) and
`_untransform_params` (with `f`). -/
def applyConstraints (sel : TransformFuns → Val → Val) (env : TEnv)
    (cs : IndexStore CProp) (p : List Val) : List Val :=
  cs.foldl
    (fun q ci =>
      match ci.1 with
      | CProp.fixedP => q
      | CProp.transform t => npPutApp q ci.2 (sel (env t))) p

/-- Embeds `OptimizationHandlable._get_params_transformed`
(parameter_core.py, lines 362-368): apply each non-fixed transform's `finv`
over its index set, then drop the fixed entries through the mask. -/
def get_params_transformed (env : TEnv) (s : PState) : List Val :=
  let p := applyConstraints (fun tf => tf.finv) env s.constraints s.params
  match s.fixes with
  | some m => maskSelect p m
  | none => p

/-- Embeds `OptimizationHandlable._untransform_params` (parameter_core.py,
lines 377-381): scatter the free vector into the current raw vector at the
unfixed positions, then apply each non-fixed transform's forward `f`. -/
def untransform_params (env : TEnv) (s : PState) (p : List Val) : List Val :=
  let p1 :=
    match s.fixes with
    | some m => maskScatter s.params m p
    | none => p
  applyConstraints (fun tf => tf.f) env s.constraints p1

/-- Embeds `OptimizationHandlable._set_params_transformed` (parameter_core.py,
lines 370-372).  At the flat level `Parameterizable._set_params` distributes
the vector over the children's contiguous slices, i.e. replaces the
concatenated raw vector. -/
def set_params_transformed (env : TEnv) (s : PState) (p : List Val) : PState :=
  { s with params := untransform_params env s p }

/-- Embeds `OptimizationHandlable._size_transformed` (parameter_core.py,
lines 374-375): `size - constraints[fixed].size`. -/
def size_transformed (s : PState) : Nat :=
  s.size - (getIdx s.constraints CProp.fixedP).length

/-- Embeds `Constrainable._connect_fixes` (parameter_core.py, lines
226-232): the mask as rebuilt from `constraints[fixed]` - all UNFIXED with
FIXED at the recorded indices, or `None` when nothing is recorded. -/
def connect_fixes_mask (sz : Nat) (fixedIdx : List Nat) : Option (List Bool) :=
  if 0 < fixedIdx.length then
    some ((List.range sz).map (fun i => !(fixedIdx.contains i)))
  else none

/-- The store invariant: the recorded index sets of the constraints store
are pairwise disjoint (an offset belongs to at most one transform, and the
fixed sentinel never overlaps a transform). -/
abbrev storeDisjoint (cs : IndexStore CProp) : Prop :=
  cs.Pairwise (fun a b => ∀ i, i ∈ a.2 → i ∉ b.2)

/-- Well-formedness of a flat node state, as the hierarchy maintains it:
`size` matches the raw vector, recorded indices are in range and duplicate
free, index sets are pairwise disjoint, and the fix mask is exactly the one
`_connect_fixes` derives from `constraints[fixed]`. -/
def wfB (s : PState) : Bool :=
  (s.size == s.params.length)
    && s.constraints.all (fun ci => ci.2.all (fun i => decide (i < s.params.length)))
    && s.constraints.all (fun ci => decide ci.2.Nodup)
    && decide (storeDisjoint s.constraints)
    && (s.fixes == connect_fixes_mask s.size (getIdx s.constraints CProp.fixedP))

/-- The first transform entry of the store covering index `i` (under
disjointness, the only one). -/
def coveringTransform : IndexStore CProp → Nat → Option Nat
  | [], _ => none
  | (CProp.fixedP, _) :: cs, i => coveringTransform cs i
  | (CProp.transform t, ind) :: cs, i =>
    if i ∈ ind then some t else coveringTransform cs i

end GPyFlat

namespace GPyFlat

theorem putFold_length (l : List (Nat × Val)) (p : List Val) :
    (l.foldl (fun acc iv => acc.set iv.1 iv.2) p).length = p.length := by
  induction l generalizing p with
  | nil => rfl
  | cons a t ih => simp [List.foldl_cons, ih, List.length_set]

theorem npPut_length (p : List Val) (ind : List Nat) (vals : List Val) :
    (npPut p ind vals).length = p.length := putFold_length _ _

theorem npPutApp_length (p : List Val) (ind : List Nat) (g : Val → Val) :
    (npPutApp p ind g).length = p.length := putFold_length _ _

theorem applyConstraints_length (sel : TransformFuns → Val → Val) (env : TEnv)
    (cs : IndexStore CProp) (p : List Val) :
    (applyConstraints sel env cs p).length = p.length := by
  induction cs generalizing p with
  | nil => rfl
  | cons ci rest ih =>
    obtain ⟨cp, ind⟩ := ci
    cases cp with
    | fixedP => simpa [applyConstraints] using ih p
    | transform t =>
      have h := ih (npPutApp p ind (sel (env t)))
      simpa [applyConstraints, npPutApp_length] using h

theorem getD_set_ne (l : List Val) (i j : Nat) (a : Val) (h : i ≠ j) :
    (l.set i a).getD j 0 = l.getD j 0 := by
  rw [List.getD_eq_getElem?_getD, List.getD_eq_getElem?_getD,
    List.getElem?_set_ne h]

theorem putFold_getD_notmem (l : List (Nat × Val)) (p : List Val) (i : Nat)
    (h : ∀ kv ∈ l, kv.1 ≠ i) :
    (l.foldl (fun acc iv => acc.set iv.1 iv.2) p).getD i 0 = p.getD i 0 := by
  induction l generalizing p with
  | nil => rfl
  | cons a t ih =>
    rw [List.foldl_cons]
    rw [ih _ (fun kv hkv => h kv (List.mem_cons_of_mem a hkv))]
    exact getD_set_ne _ _ _ _ (h a (List.mem_cons_self a t))

theorem npPutApp_getD_notmem (p : List Val) (ind : List Nat) (g : Val → Val)
    (i : Nat) (h : i ∉ ind) :
    (npPutApp p ind g).getD i 0 = p.getD i 0 := by
  apply putFold_getD_notmem
  intro kv hkv heq
  exact h (heq ▸ (List.of_mem_zip hkv).1)

theorem npGet_set_notmem (p : List Val) (a : Nat) (v : Val) (ind : List Nat)
    (h : a ∉ ind) : npGet (p.set a v) ind = npGet p ind := by
  apply List.map_congr_left
  intro j hj
  exact getD_set_ne _ _ _ _ (fun he => h (he ▸ hj))

theorem npPutApp_cons (p : List Val) (a : Nat) (ind : List Nat)
    (g : Val → Val) (h : a ∉ ind) :
    npPutApp p (a :: ind) g = npPutApp (p.set a (g (p.getD a 0))) ind g := by
  have hget := npGet_set_notmem p a (g (p.getD a 0)) ind h
  unfold npPutApp
  rw [hget]
  unfold npPut npGet
  simp only [List.map_cons, List.zip_cons_cons, List.foldl_cons]

theorem npPutApp_getD_mem (p : List Val) (ind : List Nat) (g : Val → Val)
    (i : Nat) (hnd : ind.Nodup) (hb : ∀ j ∈ ind, j < p.length)
    (hm : i ∈ ind) :
    (npPutApp p ind g).getD i 0 = g (p.getD i 0) := by
  induction ind generalizing p with
  | nil => cases hm
  | cons a t ih =>
    rcases List.nodup_cons.mp hnd with ⟨hat, hndt⟩
    rw [npPutApp_cons p a t g hat]
    rcases List.mem_cons.mp hm with rfl | hit
    · rw [npPutApp_getD_notmem _ t g i hat]
      rw [List.getD_eq_getElem?_getD,
        List.getElem?_set_self (hb i (List.mem_cons_self i t))]
      rfl
    · have hb1 : ∀ j ∈ t, j < (p.set a (g (p.getD a 0))).length := by
        simpa [List.length_set] using fun j hj => hb j (List.mem_cons_of_mem a hj)
      rw [ih _ hndt hb1 hit]
      congr 1
      exact getD_set_ne _ _ _ _ (fun he => hat (he.symm ▸ hit))

theorem applyConstraints_getD_notcov (sel : TransformFuns → Val → Val)
    (env : TEnv) (cs : IndexStore CProp) (p : List Val) (i : Nat)
    (h : ∀ ci ∈ cs, ∀ t, ci.1 = CProp.transform t → i ∉ ci.2) :
    (applyConstraints sel env cs p).getD i 0 = p.getD i 0 := by
  induction cs generalizing p with
  | nil => rfl
  | cons ci rest ih =>
    obtain ⟨cp, ind⟩ := ci
    cases cp with
    | fixedP =>
      simpa [applyConstraints] using
        ih p (fun ci hci => h ci (List.mem_cons_of_mem _ hci))
    | transform t =>
      have hni : i ∉ ind :=
        h (CProp.transform t, ind) (List.mem_cons_self _ _) t rfl
      have hrec := ih (npPutApp p ind (sel (env t)))
        (fun ci hci => h ci (List.mem_cons_of_mem _ hci))
      simp only [applyConstraints, List.foldl_cons] at hrec ⊢
      rw [hrec, npPutApp_getD_notmem _ _ _ _ hni]

theorem applyConstraints_getD (sel : TransformFuns → Val → Val) (env : TEnv)
    (cs : IndexStore CProp) (p : List Val) (i : Nat)
    (hb : ∀ ci ∈ cs, ∀ j ∈ ci.2, j < p.length)
    (hnd : ∀ ci ∈ cs, ci.2.Nodup)
    (hdj : storeDisjoint cs) :
    (applyConstraints sel env cs p).getD i 0
      = match coveringTransform cs i with
        | some t => sel (env t) (p.getD i 0)
        | none => p.getD i 0 := by
  induction cs generalizing p with
  | nil => rfl
  | cons ci rest ih =>
    obtain ⟨cp, ind⟩ := ci
    rcases List.pairwise_cons.mp hdj with ⟨hd1, hdrest⟩
    cases cp with
    | fixedP =>
      simpa [applyConstraints, coveringTransform] using
        ih p (fun ci hci => hb ci (List.mem_cons_of_mem _ hci))
          (fun ci hci => hnd ci (List.mem_cons_of_mem _ hci)) hdrest
    | transform t =>
      by_cases him : i ∈ ind
      · have h1 : (npPutApp p ind (sel (env t))).getD i 0
            = sel (env t) (p.getD i 0) :=
          npPutApp_getD_mem p ind (sel (env t)) i
            (hnd (CProp.transform t, ind) (List.mem_cons_self _ _))
            (hb (CProp.transform t, ind) (List.mem_cons_self _ _)) him
        have hrest : ∀ ci ∈ rest, ∀ u, ci.1 = CProp.transform u → i ∉ ci.2 :=
          fun ci hci _ _ => hd1 ci hci i him
        have h2 := applyConstraints_getD_notcov sel env rest
          (npPutApp p ind (sel (env t))) i hrest
        simp only [applyConstraints, List.foldl_cons, coveringTransform,
          him, if_true] at h2 ⊢
        rw [h2, h1]
      · have hb1 : ∀ ci ∈ rest, ∀ j ∈ ci.2,
            j < (npPutApp p ind (sel (env t))).length := by
          rw [npPutApp_length]
          exact fun ci hci => hb ci (List.mem_cons_of_mem _ hci)
        have hrec := ih (npPutApp p ind (sel (env t))) hb1
          (fun ci hci => hnd ci (List.mem_cons_of_mem _ hci)) hdrest
        have hne := npPutApp_getD_notmem p ind (sel (env t)) i him
        simp only [applyConstraints, List.foldl_cons, coveringTransform,
          him, if_false] at hrec ⊢
        rw [hrec, hne]

end GPyFlat

namespace GPyFlat

theorem maskScatter_length (tmp : List Val) (m : List Bool) (v : List Val) :
    (maskScatter tmp m v).length = tmp.length := by
  induction tmp generalizing m v with
  | nil => rfl
  | cons t ts ih =>
    cases m with
    | nil => rfl
    | cons b ms =>
      cases b with
      | true =>
        cases v with
        | nil => simp [maskScatter, ih]
        | cons x xs => simp [maskScatter, ih]
      | false => simp [maskScatter, ih]

theorem maskSelect_nil_left (m : List Bool) : maskSelect [] m = [] := rfl

theorem maskSelect_cons_true (x : Val) (xs : List Val) (ms : List Bool) :
    maskSelect (x :: xs) (true :: ms) = x :: maskSelect xs ms := by
  simp [maskSelect]

theorem maskSelect_cons_false (x : Val) (xs : List Val) (ms : List Bool) :
    maskSelect (x :: xs) (false :: ms) = maskSelect xs ms := by
  simp [maskSelect]

theorem maskScatter_maskSelect_getD (m : List Bool) :
    ∀ (tmp q : List Val), tmp.length = m.length → q.length = m.length →
      ∀ i, (maskScatter tmp m (maskSelect q m)).getD i 0
        = if m.getD i true = true then q.getD i 0 else tmp.getD i 0 := by
  induction m with
  | nil =>
    intro tmp q ht hq i
    rw [List.length_nil] at ht hq
    obtain rfl := List.length_eq_zero.mp ht
    obtain rfl := List.length_eq_zero.mp hq
    simp [maskScatter]
  | cons b ms ih =>
    intro tmp q ht hq i
    rcases tmp with _ | ⟨t, ts⟩
    · cases ht
    rcases q with _ | ⟨x, xs⟩
    · cases hq
    have hts : ts.length = ms.length := by simpa using ht
    have hxs : xs.length = ms.length := by simpa using hq
    cases b with
    | true =>
      rw [maskSelect_cons_true]
      cases i with
      | zero => simp [maskScatter]
      | succ n => simpa [maskScatter, List.getD_cons_succ] using ih ts xs hts hxs n
    | false =>
      rw [maskSelect_cons_false]
      cases i with
      | zero => simp [maskScatter]
      | succ n => simpa [maskScatter, List.getD_cons_succ] using ih ts xs hts hxs n

theorem maskScatter_getD_false (m : List Bool) :
    ∀ (tmp v : List Val) (i : Nat), m.getD i true = false →
      (maskScatter tmp m v).getD i 0 = tmp.getD i 0 := by
  induction m with
  | nil => intro tmp v i h; simp [List.getD] at h
  | cons b ms ih =>
    intro tmp v i h
    rcases tmp with _ | ⟨t, ts⟩
    · rfl
    cases b with
    | true =>
      cases i with
      | zero => simp at h
      | succ n =>
        have h1 : ms.getD n true = false := by simpa using h
        cases v with
        | nil =>
          rw [show maskScatter (t :: ts) (true :: ms) []
              = t :: maskScatter ts ms [] from rfl]
          rw [List.getD_cons_succ, List.getD_cons_succ]
          exact ih ts [] n h1
        | cons x xs =>
          rw [show maskScatter (t :: ts) (true :: ms) (x :: xs)
              = x :: maskScatter ts ms xs from rfl]
          rw [List.getD_cons_succ, List.getD_cons_succ]
          exact ih ts xs n h1
    | false =>
      cases i with
      | zero => simp [maskScatter]
      | succ n =>
        have h1 : ms.getD n true = false := by simpa using h
        rw [show maskScatter (t :: ts) (false :: ms) v
            = t :: maskScatter ts ms v from rfl]
        rw [List.getD_cons_succ, List.getD_cons_succ]
        exact ih ts v n h1

theorem maskSelect_length (m : List Bool) :
    ∀ q : List Val, q.length = m.length →
      (maskSelect q m).length = m.countP (fun b => b) := by
  induction m with
  | nil =>
    intro q hq
    obtain rfl := List.length_eq_zero.mp hq
    simp [maskSelect]
  | cons b ms ih =>
    intro q hq
    rcases q with _ | ⟨x, xs⟩
    · cases hq
    have hxs : xs.length = ms.length := by simpa using hq
    cases b with
    | true => simp [maskSelect_cons_true, List.countP_cons, ih xs hxs]
    | false => simp [maskSelect_cons_false, List.countP_cons, ih xs hxs]

theorem getIdx_cons {κ : Type} [DecidableEq κ] (q : κ) (ind : List Nat)
    (rest : IndexStore κ) (p : κ) :
    getIdx ((q, ind) :: rest) p
      = (if q = p then ind else []) ++ getIdx rest p := by
  by_cases h : q = p <;> simp [getIdx, List.filter_cons, h]

theorem mem_getIdx {κ : Type} [DecidableEq κ] (st : IndexStore κ) (p : κ)
    (i : Nat) : i ∈ getIdx st p ↔ ∃ ci ∈ st, ci.1 = p ∧ i ∈ ci.2 := by
  simp only [getIdx, List.mem_flatten, List.mem_map, List.mem_filter,
    decide_eq_true_eq]
  constructor
  · rintro ⟨l, ⟨ci, ⟨hci, hkey⟩, rfl⟩, hil⟩
    exact ⟨ci, hci, hkey, hil⟩
  · rintro ⟨ci, hci, hkey, hil⟩
    exact ⟨ci.2, ⟨ci, ⟨hci, hkey⟩, rfl⟩, hil⟩

theorem storeDisjoint_ne_entries (cs : IndexStore CProp)
    (hdj : storeDisjoint cs) (a b : CProp × List Nat) (ha : a ∈ cs)
    (hb : b ∈ cs) (hne : a.1 ≠ b.1) (i : Nat) (hia : i ∈ a.2) : i ∉ b.2 := by
  induction cs with
  | nil => cases ha
  | cons c rest ih =>
    rcases List.pairwise_cons.mp hdj with ⟨hd1, hdrest⟩
    rcases List.mem_cons.mp ha with rfl | ha1
    · rcases List.mem_cons.mp hb with rfl | hb1
      · exact absurd rfl hne
      · exact hd1 b hb1 i hia
    · rcases List.mem_cons.mp hb with rfl | hb1
      · intro hib
        exact hd1 a ha1 i hib hia
      · exact ih hdrest ha1 hb1

theorem getIdx_nodup (cs : IndexStore CProp)
    (hnd : ∀ ci ∈ cs, ci.2.Nodup) (hdj : storeDisjoint cs) (p : CProp) :
    (getIdx cs p).Nodup := by
  induction cs with
  | nil => simp [getIdx]
  | cons ci rest ih =>
    obtain ⟨q, ind⟩ := ci
    rcases List.pairwise_cons.mp hdj with ⟨hd1, hdrest⟩
    rw [getIdx_cons]
    by_cases h : q = p
    · simp only [h, if_true]
      refine List.Nodup.append (hnd _ (List.mem_cons_self _ _))
        (ih (fun cj hcj => hnd cj (List.mem_cons_of_mem _ hcj)) hdrest) ?_
      intro i hi hmem
      rcases (mem_getIdx rest p i).mp hmem with ⟨cj, hcj, _, hij⟩
      exact hd1 cj hcj i hi hij
    · simp only [h, if_false, List.nil_append]
      exact ih (fun cj hcj => hnd cj (List.mem_cons_of_mem _ hcj)) hdrest

theorem getIdx_bounds (s : PState)
    (hb : ∀ ci ∈ s.constraints, ∀ j ∈ ci.2, j < s.params.length) (p : CProp)
    (i : Nat) (hi : i ∈ getIdx s.constraints p) : i < s.params.length := by
  rcases (mem_getIdx s.constraints p i).mp hi with ⟨ci, hci, _, hij⟩
  exact hb ci hci i hij

theorem coveringTransform_mem (cs : IndexStore CProp) (i t : Nat)
    (h : coveringTransform cs i = some t) :
    ∃ ci ∈ cs, ci.1 = CProp.transform t ∧ i ∈ ci.2 := by
  induction cs with
  | nil => cases h
  | cons ci rest ih =>
    obtain ⟨cp, ind⟩ := ci
    cases cp with
    | fixedP =>
      rcases ih (by simpa [coveringTransform] using h) with ⟨cj, hcj, hk, hm⟩
      exact ⟨cj, List.mem_cons_of_mem _ hcj, hk, hm⟩
    | transform u =>
      by_cases him : i ∈ ind
      · have hut : u = t := by simpa [coveringTransform, him] using h
        subst hut
        exact ⟨(CProp.transform u, ind), List.mem_cons_self _ _, rfl, him⟩
      · rcases ih (by simpa [coveringTransform, him] using h) with ⟨cj, hcj, hk, hm⟩
        exact ⟨cj, List.mem_cons_of_mem _ hcj, hk, hm⟩

theorem covering_not_fixed (cs : IndexStore CProp) (hdj : storeDisjoint cs)
    (i t : Nat) (h : coveringTransform cs i = some t) :
    i ∉ getIdx cs CProp.fixedP := by
  rcases coveringTransform_mem cs i t h with ⟨ci, hci, hkey, him⟩
  intro hfix
  rcases (mem_getIdx cs CProp.fixedP i).mp hfix with ⟨cj, hcj, hkeyj, himj⟩
  have hne : ci.1 ≠ cj.1 := by rw [hkey, hkeyj]; intro hc; cases hc
  exact storeDisjoint_ne_entries cs hdj ci cj hci hcj hne i him himj

theorem connect_mask_getD (sz : Nat) (fixedIdx : List Nat) (i : Nat)
    (hi : i < sz) (m : List Bool)
    (hm : connect_fixes_mask sz fixedIdx = some m) :
    m.getD i true = !(fixedIdx.contains i) := by
  unfold connect_fixes_mask at hm
  split at hm
  · simp only [Option.some.injEq] at hm
    subst hm
    rw [List.getD_eq_getElem?_getD, List.getElem?_map, List.getElem?_range hi]
    rfl
  · cases hm

theorem connect_mask_length (sz : Nat) (fixedIdx : List Nat) (m : List Bool)
    (hm : connect_fixes_mask sz fixedIdx = some m) : m.length = sz := by
  unfold connect_fixes_mask at hm
  split at hm
  · simp only [Option.some.injEq] at hm
    subst hm
    simp
  · cases hm

theorem connect_mask_none (sz : Nat) (fixedIdx : List Nat)
    (hm : connect_fixes_mask sz fixedIdx = none) : fixedIdx.length = 0 := by
  unfold connect_fixes_mask at hm
  split at hm
  · cases hm
  · omega

/-- The facts packaged by the well-formedness boolean. -/
structure WfFacts (s : PState) : Prop where
  hsz : s.size = s.params.length
  hb : ∀ ci ∈ s.constraints, ∀ j ∈ ci.2, j < s.params.length
  hnd : ∀ ci ∈ s.constraints, ci.2.Nodup
  hdj : storeDisjoint s.constraints
  hm : s.fixes = connect_fixes_mask s.size (getIdx s.constraints CProp.fixedP)

theorem wfB_facts (s : PState) (h : wfB s = true) : WfFacts s := by
  unfold wfB at h
  simp only [Bool.and_eq_true, beq_iff_eq, List.all_eq_true,
    decide_eq_true_eq] at h
  obtain ⟨⟨⟨⟨h1, h2⟩, h3⟩, h4⟩, h5⟩ := h
  exact ⟨h1, fun ci hci j hj => h2 ci hci j hj, fun ci hci => h3 ci hci, h4, h5⟩

end GPyFlat

namespace GPyFlat

theorem countP_or_split (xs : List Nat) (p q : Nat → Bool)
    (h : ∀ x ∈ xs, ¬(p x = true ∧ q x = true)) :
    xs.countP (fun x => p x || q x) = xs.countP p + xs.countP q := by
  induction xs with
  | nil => simp
  | cons x t ih =>
    have ht := ih (fun y hy => h y (List.mem_cons_of_mem x hy))
    have hx := h x (List.mem_cons_self x t)
    cases hp : p x with
    | true =>
      cases hq : q x with
      | true => exact absurd ⟨hp, hq⟩ hx
      | false => simp [List.countP_cons, hp, hq, ht]; omega
    | false =>
      cases hq : q x with
      | true => simp [List.countP_cons, hp, hq, ht]; omega
      | false => simp [List.countP_cons, hp, hq, ht]

theorem countP_contains_range (l : List Nat) (sz : Nat) (hnd : l.Nodup)
    (hb : ∀ i ∈ l, i < sz) :
    (List.range sz).countP (fun i => l.contains i) = l.length := by
  induction l with
  | nil => simp
  | cons a t ih =>
    rcases List.nodup_cons.mp hnd with ⟨hat, hndt⟩
    have hcongr : (List.range sz).countP (fun i => (a :: t).contains i)
        = (List.range sz).countP (fun i => (i == a) || t.contains i) := by
      apply List.countP_congr
      intro x _
      rw [List.contains_cons]
    have hsplit : (List.range sz).countP (fun i => (i == a) || t.contains i)
        = (List.range sz).countP (fun i => i == a)
          + (List.range sz).countP (fun i => t.contains i) := by
      apply countP_or_split
      intro x _ hx
      rcases hx with ⟨h1, h2⟩
      have hxa : x = a := by simpa using h1
      subst hxa
      exact hat (by simpa using h2)
    have hone : (List.range sz).countP (fun i => i == a)
        = (List.range sz).count a := rfl
    rw [hcongr, hsplit, hone,
      List.count_eq_one_of_mem (List.nodup_range sz)
        (List.mem_range.mpr (hb a (List.mem_cons_self a t))),
      ih hndt (fun i hi => hb i (List.mem_cons_of_mem a hi))]
    simp [Nat.add_comm]

theorem countP_not_contains_range (l : List Nat) (sz : Nat) (hnd : l.Nodup)
    (hb : ∀ i ∈ l, i < sz) :
    (List.range sz).countP (fun i => !(l.contains i)) = sz - l.length := by
  have hlen := List.length_eq_countP_add_countP (fun i => l.contains i)
    (List.range sz)
  have hcongr : (List.range sz).countP (fun a => decide ¬l.contains a = true)
      = (List.range sz).countP (fun i => !(l.contains i)) := by
    apply List.countP_congr
    intro x _
    cases h : l.contains x <;> simp [h]
  rw [List.length_range] at hlen
  rw [countP_contains_range l sz hnd hb] at hlen
  omega

/-- C2: on a well-formed state, `_set_params_transformed` applied to the
result of `_get_params_transformed` leaves every raw parameter value
unchanged, provided every transform satisfies `f (finv x) = x`: the free
entries go out through `finv` and come back through `f`, while the fixed
entries are never overwritten by the scatter. -/
theorem transformed_roundtrip (env : TEnv) (s : PState)
    (hwf : wfB s = true)
    (hfinv : ∀ t x, (env t).f ((env t).finv x) = x) :
    (set_params_transformed env s (get_params_transformed env s)).params
      = s.params := by
  obtain ⟨hsz, hb, hnd, hdj, hm⟩ := wfB_facts s hwf
  show untransform_params env s (get_params_transformed env s) = s.params
  have hqlen : (applyConstraints (fun tf => tf.finv) env s.constraints
      s.params).length = s.params.length := applyConstraints_length _ _ _ _
  have hqget : ∀ i,
      (applyConstraints (fun tf => tf.finv) env s.constraints s.params).getD i 0
        = match coveringTransform s.constraints i with
          | some t => (env t).finv (s.params.getD i 0)
          | none => s.params.getD i 0 :=
    fun i => applyConstraints_getD _ env _ _ i hb hnd hdj
  cases hf : s.fixes with
  | none =>
    have hunf : untransform_params env s (get_params_transformed env s)
        = applyConstraints (fun tf => tf.f) env s.constraints
            (applyConstraints (fun tf => tf.finv) env s.constraints s.params) := by
      simp [untransform_params, get_params_transformed, hf]
    rw [hunf]
    apply List.ext_getElem
    · rw [applyConstraints_length, hqlen]
    · intro n h1 h2
      rw [← List.getD_eq_getElem _ 0 h1, ← List.getD_eq_getElem _ 0 h2]
      rw [applyConstraints_getD _ env _ _ n
        (by rw [hqlen]; exact hb) hnd hdj]
      cases hcov : coveringTransform s.constraints n with
      | none => simp only [hqget n, hcov]
      | some t => simp only [hqget n, hcov, hfinv t]
  | some m =>
    rw [hf] at hm
    have hmm : connect_fixes_mask s.size (getIdx s.constraints CProp.fixedP)
        = some m := hm.symm
    have hmlen : m.length = s.size := connect_mask_length _ _ _ hmm
    have hmplen : m.length = s.params.length := by rw [hmlen, hsz]
    have hunf : untransform_params env s (get_params_transformed env s)
        = applyConstraints (fun tf => tf.f) env s.constraints
            (maskScatter s.params m
              (maskSelect (applyConstraints (fun tf => tf.finv) env
                s.constraints s.params) m)) := by
      simp [untransform_params, get_params_transformed, hf]
    rw [hunf]
    have hulen : (maskScatter s.params m
        (maskSelect (applyConstraints (fun tf => tf.finv) env
          s.constraints s.params) m)).length = s.params.length :=
      maskScatter_length _ _ _
    have huget := maskScatter_maskSelect_getD m s.params
      (applyConstraints (fun tf => tf.finv) env s.constraints s.params)
      hmplen.symm (by rw [hqlen, hmplen])
    apply List.ext_getElem
    · rw [applyConstraints_length, hulen]
    · intro n h1 h2
      rw [← List.getD_eq_getElem _ 0 h1, ← List.getD_eq_getElem _ 0 h2]
      rw [applyConstraints_getD _ env _ _ n (by rw [hulen]; exact hb) hnd hdj]
      cases hcov : coveringTransform s.constraints n with
      | none =>
        rw [huget n]
        by_cases hmn : m.getD n true = true
        · simp only [hmn, if_true, hqget n, hcov]
        · rw [if_neg hmn]
      | some t =>
        have hnb : n < s.params.length := h2
        have hnotfix : n ∉ getIdx s.constraints CProp.fixedP :=
          covering_not_fixed s.constraints hdj n t hcov
        have hmn : m.getD n true = true := by
          rw [connect_mask_getD s.size _ n (by omega) m hmm]
          simp only [Bool.not_eq_true']
          rw [← Bool.not_eq_true]
          intro hc
          exact hnotfix (by simpa using hc)
        rw [huget n]
        simp only [hmn, if_true, hqget n, hcov, hfinv t]

/-- A concrete transform environment whose forward and inverse cancel. -/
def envDemo : TEnv :=
  fun _ => ⟨fun x => x + 1, fun x => x - 1, fun _ => 1, fun x => x⟩

/-- A concrete well-formed state: three raw values, one transform over
index 0 and the fixed sentinel over index 1. -/
def sDemo : PState :=
  { params := [1, 2, 3]
    size := 3
    constraints := [(CProp.transform 0, [0]), (CProp.fixedP, [1])]
    fixes := some [true, false, true]
    hasParentB := false
    ties := [] }

/-- Witness for C2 at a mixed state (one transform, one fixed entry, one
unconstrained entry). -/
theorem transformed_roundtrip_witness :
    (set_params_transformed envDemo sDemo
      (get_params_transformed envDemo sDemo)).params = sDemo.params :=
  transformed_roundtrip envDemo sDemo (by decide)
    (fun t x => by show x - 1 + 1 = x; ring)

/-- C3: on a well-formed state the free vector returned by
`_get_params_transformed` has length `size` minus the number of fixed
indices, and `_size_transformed` returns that same number. -/
theorem free_vector_length (env : TEnv) (s : PState) (hwf : wfB s = true) :
    (get_params_transformed env s).length
        = s.size - (getIdx s.constraints CProp.fixedP).length
      ∧ size_transformed s
        = s.size - (getIdx s.constraints CProp.fixedP).length := by
  refine ⟨?_, rfl⟩
  obtain ⟨hsz, hb, hnd, hdj, hm⟩ := wfB_facts s hwf
  have hfnd : (getIdx s.constraints CProp.fixedP).Nodup :=
    getIdx_nodup s.constraints hnd hdj CProp.fixedP
  have hfb : ∀ i ∈ getIdx s.constraints CProp.fixedP, i < s.size := by
    intro i hi
    rw [hsz]
    exact getIdx_bounds s hb CProp.fixedP i hi
  cases hf : s.fixes with
  | none =>
    rw [hf] at hm
    have h0 : (getIdx s.constraints CProp.fixedP).length = 0 :=
      connect_mask_none _ _ hm.symm
    have : get_params_transformed env s
        = applyConstraints (fun tf => tf.finv) env s.constraints s.params := by
      simp [get_params_transformed, hf]
    rw [this, applyConstraints_length, h0, ← hsz]
    omega
  | some m =>
    rw [hf] at hm
    have hmm : connect_fixes_mask s.size (getIdx s.constraints CProp.fixedP)
        = some m := hm.symm
    have hmlen : m.length = s.size := connect_mask_length _ _ _ hmm
    have hmeq : m = (List.range s.size).map
        (fun i => !((getIdx s.constraints CProp.fixedP).contains i)) := by
      unfold connect_fixes_mask at hmm
      split at hmm
      · simpa using hmm.symm
      · cases hmm
    have hsel : get_params_transformed env s
        = maskSelect (applyConstraints (fun tf => tf.finv) env s.constraints
            s.params) m := by
      simp [get_params_transformed, hf]
    rw [hsel, maskSelect_length m _ (by rw [applyConstraints_length, hmlen, hsz])]
    rw [hmeq, List.countP_map]
    have hcomp : (List.range s.size).countP
        ((fun b => b) ∘ fun i => !((getIdx s.constraints CProp.fixedP).contains i))
        = (List.range s.size).countP
            (fun i => !((getIdx s.constraints CProp.fixedP).contains i)) := rfl
    rw [hcomp, countP_not_contains_range _ _ hfnd hfb]

/-- Witness for C3 at the demonstration state: the free vector has length 2
over a size-3 node with one fixed index. -/
theorem free_vector_length_witness :
    (get_params_transformed envDemo sDemo).length
        = sDemo.size - (getIdx sDemo.constraints CProp.fixedP).length
      ∧ size_transformed sDemo
        = sDemo.size - (getIdx sDemo.constraints CProp.fixedP).length :=
  free_vector_length envDemo sDemo (by decide)

/-- Whether index `i` is marked FIXED in the node's mask. -/
def is_fixed_idx (s : PState) (i : Nat) : Bool :=
  match s.fixes with
  | some m => !(m.getD i true)
  | none => false

/-- C4: on a well-formed state, `_set_params_transformed` with any free
vector of the free-parameter length leaves the raw value of every fixed
index unchanged: the scatter writes only unfixed positions and no transform
covers a fixed index. -/
theorem set_params_preserves_fixed (env : TEnv) (s : PState) (v : List Val)
    (hwf : wfB s = true) (hlen : v.length = size_transformed s) (i : Nat)
    (hfix : is_fixed_idx s i = true) :
    (set_params_transformed env s v).params.getD i 0 = s.params.getD i 0 := by
  obtain ⟨hsz, hb, hnd, hdj, hm⟩ := wfB_facts s hwf
  cases hf : s.fixes with
  | none =>
    unfold is_fixed_idx at hfix
    rw [hf] at hfix
    cases hfix
  | some m =>
    have hmf : m.getD i true = false := by
      unfold is_fixed_idx at hfix
      rw [hf] at hfix
      simpa using hfix
    rw [hf] at hm
    have hmm : connect_fixes_mask s.size (getIdx s.constraints CProp.fixedP)
        = some m := hm.symm
    have hmlen : m.length = s.size := connect_mask_length _ _ _ hmm
    have hilt : i < s.size := by
      by_contra hge
      have : m.getD i true = true := by
        apply List.getD_eq_default
        omega
      rw [this] at hmf
      cases hmf
    have hifix : i ∈ getIdx s.constraints CProp.fixedP := by
      have := connect_mask_getD s.size _ i hilt m hmm
      rw [hmf] at this
      have hcontains : (getIdx s.constraints CProp.fixedP).contains i = true := by
        cases hc : (getIdx s.constraints CProp.fixedP).contains i
        · rw [hc] at this; cases this
        · rfl
      simpa using hcontains
    have hcov : ∀ ci ∈ s.constraints, ∀ t, ci.1 = CProp.transform t → i ∉ ci.2 := by
      intro ci hci t hkey him
      rcases (mem_getIdx s.constraints CProp.fixedP i).mp hifix
        with ⟨cj, hcj, hkeyj, himj⟩
      have hne : ci.1 ≠ cj.1 := by rw [hkey, hkeyj]; intro hc; cases hc
      exact storeDisjoint_ne_entries s.constraints hdj ci cj hci hcj hne i him himj
    show (untransform_params env s v).getD i 0 = s.params.getD i 0
    have hunf : untransform_params env s v
        = applyConstraints (fun tf => tf.f) env s.constraints
            (maskScatter s.params m v) := by
      simp [untransform_params, hf]
    rw [hunf, applyConstraints_getD_notcov _ env _ _ i hcov]
    exact maskScatter_getD_false m s.params v i hmf

/-- Witness for C4 at the demonstration state, writing a fresh free vector
while index 1 is fixed. -/
theorem set_params_preserves_fixed_witness :
    (set_params_transformed envDemo sDemo [10, 20]).params.getD 1 0
      = sDemo.params.getD 1 0 :=
  set_params_preserves_fixed envDemo sDemo [10, 20] (by decide) (by decide) 1
    (by decide)

end GPyFlat

namespace GPyFlat

/-- The keys currently present in a store (`which.properties()`). -/
def properties {κ : Type} (st : IndexStore κ) : List κ :=
  st.map (fun ci => ci.1)

/-- Modelled from the spec: `ParameterIndexOperations.remove(prop, indices)`
removes the given indices from the property's recorded set and returns the
removed indices (the property's set restricted to the caller's raveled
index). -/
def store_remove {κ : Type} [DecidableEq κ] (st : IndexStore κ) (p : κ)
    (ind : List Nat) : IndexStore κ × List Nat :=
  (st.map (fun ci =>
      if ci.1 = p then (ci.1, ci.2.filter (fun i => !(ind.contains i)))
      else ci),
   (getIdx st p).filter (fun i => ind.contains i))

/-- `np.union1d`, up to ordering of the result. -/
def unionIdx (a b : List Nat) : List Nat :=
  a ++ b.filter (fun i => !(a.contains i))

/-- Modelled from the spec: the stripping half of
`ParameterIndexOperations.add(prop, indices)` - a value transform first
removes the indices from every other transform (re-constraining replaces,
never stacks); the fixed sentinel does not strip. -/
def store_strip (st : IndexStore CProp) (p : CProp) (ind : List Nat) :
    IndexStore CProp :=
  match p with
  | CProp.transform _ =>
    st.map (fun ci =>
      match ci.1 with
      | CProp.transform _ =>
        if ci.1 = p then ci
        else (ci.1, ci.2.filter (fun i => !(ind.contains i)))
      | CProp.fixedP => ci)
  | CProp.fixedP => st

/-- Modelled from the spec: `ParameterIndexOperations.add(prop, indices)` -
strip, then record the indices under `prop` (union into the existing entry,
or a fresh entry when the property is new). -/
def store_add (st : IndexStore CProp) (p : CProp) (ind : List Nat) :
    IndexStore CProp :=
  if (store_strip st p ind).any (fun ci => decide (ci.1 = p)) then
    (store_strip st p ind).map
      (fun ci => if ci.1 = p then (ci.1, unionIdx ci.2 ind) else ci)
  else store_strip st p ind ++ [(p, ind)]

/-- Embeds `Constrainable._set_unfixed` (parameter_core.py, lines 220-224)
for a root node: mark the indices UNFIXED, collapsing an all-free mask back
to `None`. -/
def set_unfixed (sz : Nat) (fixes : Option (List Bool)) (ind : List Nat) :
    Option (List Bool) :=
  let m :=
    match fixes with
    | none => List.replicate sz true
    | some m0 => m0
  let m1 := ind.foldl (fun acc j => acc.set j true) m
  if m1.all (fun b => b) then none else some m1

/-- Embeds `_raveled_index` of a root `Parameterized` (parameterized.py,
lines 286-291): `numpy.r_[:self.size]`. -/
def raveled_index (s : PState) : List Nat := List.range s.size

/-- One iteration of the loop of `Constrainable._remove_from_index_operations`
(parameter_core.py, lines 349-359) on the constraints store of a root node:
remove the property over the node's raveled index, and when the property is
the fixed sentinel, unfix the removed indices in the highest parent's mask
(the node itself, being the root). -/
def rfio_step (acc : PState × List Nat) (t : CProp) : PState × List Nat :=
  let r := store_remove acc.1.constraints t (raveled_index acc.1)
  let fixes1 :=
    if t = CProp.fixedP then set_unfixed acc.1.size acc.1.fixes r.2
    else acc.1.fixes
  ({ acc.1 with constraints := r.1, fixes := fixes1 }, unionIdx acc.2 r.2)

/-- Embeds `Constrainable._remove_from_index_operations` (parameter_core.py,
lines 349-359) on the constraints store of a root node: an empty property
list means all current properties. -/
def remove_from_index_operations (s : PState) (transforms : List CProp) :
    PState × List Nat :=
  let ts := if transforms.isEmpty then properties s.constraints else transforms
  ts.foldl rfio_step (s, [])

/-- Embeds `Constrainable.unconstrain` (parameter_core.py, lines 281-288). -/
def unconstrain (s : PState) (transforms : List CProp) : PState × List Nat :=
  remove_from_index_operations s transforms

/-- Embeds `Constrainable.constrain` (parameter_core.py, lines 267-279) on a
root node: initialise the raw values through the transform, strip every
current property (`unconstrain()` with no arguments), then record the new
transform over the node's raveled index. -/
def constrain (env : TEnv) (s : PState) (t : Nat) : PState :=
  let s0 := { s with params := s.params.map (env t).tinit }
  let r := unconstrain s0 []
  { r.1 with
    constraints := store_add r.1.constraints (CProp.transform t)
      (raveled_index r.1) }

/-- The effective FIXED/UNFIXED reading of the mask at an index (`true` =
free). -/
def maskAtB (fixes : Option (List Bool)) (i : Nat) : Bool :=
  match fixes with
  | none => true
  | some m => m.getD i true

/-- Embeds `Parameterized._transform_gradients` (parameterized.py, lines
257-266): a node with a parent returns the gradient unchanged; the root
applies each transform's `gradfactor` over its index set, accumulates the
tied gradients into their masters, and drops the fixed entries. -/
def transform_gradients (env : TEnv) (s : PState) (g : List Val) : List Val :=
  if s.hasParentB then g
  else
    let g1 := s.constraints.foldl
      (fun q ci =>
        match ci.1 with
        | CProp.fixedP => q
        | CProp.transform t =>
          npPut q ci.2 (((npGet q ci.2).zip (npGet s.params ci.2)).map
            (fun pr => pr.1 * (env t).gradfactor pr.2))) g
    let g2 := s.ties.foldl
      (fun q ti => q.set ti.1 (q.getD ti.1 0 + q.getD ti.2 0)) g1
    match s.fixes with
    | some m => maskSelect g2 m
    | none => g2

/-- C10: `_transform_gradients` is the identity on any node that has a
parent; the gradfactor scaling, tie summation and fix dropping run only on
the root (the code returns `g` before any of them when
`self.has_parent()`). -/
theorem transform_gradients_child_id (env : TEnv) (s : PState)
    (g : List Val) (h : s.hasParentB = true) :
    transform_gradients env s g = g := by
  simp [transform_gradients, h]

/-- Witness for C10 on a re-parented copy of the demonstration state, whose
constraints would otherwise rescale the gradient at index 0 and whose fix
mask would drop index 1. -/
theorem transform_gradients_child_id_witness :
    transform_gradients envDemo { sDemo with hasParentB := true } [4, 5, 6]
      = [4, 5, 6] :=
  transform_gradients_child_id envDemo { sDemo with hasParentB := true }
    [4, 5, 6] rfl

end GPyFlat

namespace GPyFlat

theorem mem_getIdx_map {κ : Type} [DecidableEq κ] (st : IndexStore κ)
    (f : κ × List Nat → κ × List Nat) (q : κ) (i : Nat) :
    i ∈ getIdx (st.map f) q ↔ ∃ ci ∈ st, (f ci).1 = q ∧ i ∈ (f ci).2 := by
  rw [mem_getIdx]
  constructor
  · rintro ⟨cj, hcj, hk, hi⟩
    rcases List.mem_map.mp hcj with ⟨ci, hci, rfl⟩
    exact ⟨ci, hci, hk, hi⟩
  · rintro ⟨ci, hci, hk, hi⟩
    exact ⟨f ci, List.mem_map.mpr ⟨ci, hci, rfl⟩, hk, hi⟩

theorem getIdx_append {κ : Type} [DecidableEq κ] (a b : IndexStore κ)
    (q : κ) : getIdx (a ++ b) q = getIdx a q ++ getIdx b q := by
  simp [getIdx, List.filter_append, List.map_append, List.flatten_append]

theorem store_remove_mem_rev {κ : Type} [DecidableEq κ] (st : IndexStore κ)
    (p : κ) (ind : List Nat) (q : κ) (i : Nat)
    (h : i ∈ getIdx (store_remove st p ind).1 q) : i ∈ getIdx st q := by
  rcases (mem_getIdx_map st _ q i).mp h with ⟨ci, hci, hk, hi⟩
  by_cases hp : ci.1 = p
  · rw [if_pos hp] at hk hi
    exact (mem_getIdx st q i).mpr
      ⟨ci, hci, hk, (List.mem_filter.mp hi).1⟩
  · rw [if_neg hp] at hk hi
    exact (mem_getIdx st q i).mpr ⟨ci, hci, hk, hi⟩

theorem store_remove_mem_ne {κ : Type} [DecidableEq κ] (st : IndexStore κ)
    (p : κ) (ind : List Nat) (q : κ) (hq : q ≠ p) (i : Nat)
    (h : i ∈ getIdx st q) : i ∈ getIdx (store_remove st p ind).1 q := by
  rcases (mem_getIdx st q i).mp h with ⟨ci, hci, hk, hi⟩
  apply (mem_getIdx_map st _ q i).mpr
  have hp : ¬ (ci.1 = p) := by rw [hk]; exact hq
  refine ⟨ci, hci, ?_, ?_⟩
  · rw [if_neg hp]; exact hk
  · rw [if_neg hp]; exact hi

theorem store_remove_self_notmem {κ : Type} [DecidableEq κ]
    (st : IndexStore κ) (p : κ) (ind : List Nat) (i : Nat)
    (hin : ind.contains i = true) :
    i ∉ getIdx (store_remove st p ind).1 p := by
  intro h
  rcases (mem_getIdx_map st _ p i).mp h with ⟨ci, hci, hk, hi⟩
  by_cases hp : ci.1 = p
  · rw [if_pos hp] at hi
    rcases List.mem_filter.mp hi with ⟨_, hcond⟩
    rw [hin] at hcond
    cases hcond
  · rw [if_neg hp] at hk
    exact hp hk

theorem store_remove_properties {κ : Type} [DecidableEq κ]
    (st : IndexStore κ) (p : κ) (ind : List Nat) :
    properties (store_remove st p ind).1 = properties st := by
  unfold store_remove properties
  rw [List.map_map]
  apply List.map_congr_left
  intro ci _
  by_cases h : ci.1 = p <;> simp [h]

theorem getIdx_eq_nil_of_not_key {κ : Type} [DecidableEq κ]
    (st : IndexStore κ) (q : κ) (h : q ∉ properties st) :
    getIdx st q = [] := by
  cases hg : getIdx st q with
  | nil => rfl
  | cons a l =>
    have ha : a ∈ getIdx st q := hg ▸ List.mem_cons_self a l
    rcases (mem_getIdx st q a).mp ha with ⟨ci, hci, hk, _⟩
    exact absurd (hk ▸ List.mem_map.mpr ⟨ci, hci, rfl⟩) h

theorem store_strip_mem_rev (st : IndexStore CProp) (p : CProp)
    (ind : List Nat) (q : CProp) (i : Nat)
    (h : i ∈ getIdx (store_strip st p ind) q) : i ∈ getIdx st q := by
  cases p with
  | fixedP => exact h
  | transform u =>
    rcases (mem_getIdx_map st _ q i).mp h with ⟨ci, hci, hk, hi⟩
    obtain ⟨ck, cl⟩ := ci
    cases ck with
    | fixedP => exact (mem_getIdx st q i).mpr ⟨(CProp.fixedP, cl), hci, hk, hi⟩
    | transform w =>
      by_cases hp : CProp.transform w = CProp.transform u
      · rw [if_pos hp] at hk hi
        exact (mem_getIdx st q i).mpr ⟨(CProp.transform w, cl), hci, hk, hi⟩
      · rw [if_neg hp] at hk hi
        exact (mem_getIdx st q i).mpr
          ⟨(CProp.transform w, cl), hci, hk, (List.mem_filter.mp hi).1⟩

theorem store_add_notmem_ne (st : IndexStore CProp) (p : CProp)
    (ind : List Nat) (q : CProp) (hq : q ≠ p) (i : Nat)
    (h : i ∉ getIdx st q) : i ∉ getIdx (store_add st p ind) q := by
  intro hmem
  apply h
  unfold store_add at hmem
  split at hmem
  · rcases (mem_getIdx_map _ _ q i).mp hmem with ⟨ci, hci, hk, hi⟩
    by_cases hp : ci.1 = p
    · rw [if_pos hp] at hk
      exact absurd (hp ▸ hk : p = q) (fun hc => hq hc.symm)
    · rw [if_neg hp] at hk hi
      exact store_strip_mem_rev st p ind q i
        ((mem_getIdx _ q i).mpr ⟨ci, hci, hk, hi⟩)
  · rw [getIdx_append] at hmem
    rcases List.mem_append.mp hmem with h1 | h2
    · exact store_strip_mem_rev st p ind q i h1
    · rw [getIdx_cons, if_neg (fun hc => hq hc.symm)] at h2
      simp [getIdx] at h2

theorem replicate_getD_true (sz j : Nat) :
    (List.replicate sz true).getD j true = true := by
  by_cases h : j < sz
  · rw [List.getD_eq_getElem _ _ (by simpa using h)]
    exact List.getElem_replicate true _
  · rw [List.getD_eq_default _ _ (by simpa using h)]

theorem set_true_getD (m : List Bool) (j i : Nat) (h : m.getD i true = true) :
    (m.set j true).getD i true = true := by
  by_cases hji : j = i
  · subst hji
    by_cases hlt : j < m.length
    · rw [List.getD_eq_getElem?_getD, List.getElem?_set_self hlt]
      rfl
    · rw [List.set_eq_of_length_le (by omega)]
      exact h
  · rw [List.getD_eq_getElem?_getD, List.getElem?_set_ne hji,
      ← List.getD_eq_getElem?_getD]
    exact h

theorem fold_set_true_preserve (i : Nat) (ind : List Nat) :
    ∀ m : List Bool, m.getD i true = true →
      (ind.foldl (fun acc j => acc.set j true) m).getD i true = true := by
  induction ind with
  | nil => intro m h; exact h
  | cons a rest ih =>
    intro m h
    rw [List.foldl_cons]
    exact ih _ (set_true_getD m a i h)

theorem fold_set_true_mem (i : Nat) (ind : List Nat) :
    ∀ m : List Bool, i ∈ ind →
      (ind.foldl (fun acc j => acc.set j true) m).getD i true = true := by
  induction ind with
  | nil => intro m h; cases h
  | cons a rest ih =>
    intro m hmem
    rw [List.foldl_cons]
    rcases List.mem_cons.mp hmem with rfl | hr
    · apply fold_set_true_preserve
      by_cases hlt : i < m.length
      · rw [List.getD_eq_getElem?_getD, List.getElem?_set_self hlt]
        rfl
      · rw [List.set_eq_of_length_le (by omega),
          List.getD_eq_default _ _ (by omega)]
    · exact ih _ hr

theorem set_unfixed_maskAt_mem (sz : Nat) (fixes : Option (List Bool))
    (ind : List Nat) (i : Nat) (hmem : i ∈ ind) :
    maskAtB (set_unfixed sz fixes ind) i = true := by
  have key : ∀ m : List Bool,
      maskAtB
        (if (ind.foldl (fun acc j => acc.set j true) m).all (fun b => b)
          then none
          else some (ind.foldl (fun acc j => acc.set j true) m)) i = true := by
    intro m
    split
    · rfl
    · exact fold_set_true_mem i ind m hmem
  cases fixes with
  | none => exact key (List.replicate sz true)
  | some m0 => exact key m0

theorem set_unfixed_maskAt_preserve (sz : Nat) (fixes : Option (List Bool))
    (ind : List Nat) (i : Nat) (h : maskAtB fixes i = true) :
    maskAtB (set_unfixed sz fixes ind) i = true := by
  have key : ∀ m : List Bool, m.getD i true = true →
      maskAtB
        (if (ind.foldl (fun acc j => acc.set j true) m).all (fun b => b)
          then none
          else some (ind.foldl (fun acc j => acc.set j true) m)) i = true := by
    intro m hm
    split
    · rfl
    · exact fold_set_true_preserve i ind m hm
  cases fixes with
  | none => exact key (List.replicate sz true) (replicate_getD_true sz i)
  | some m0 => exact key m0 h

theorem rfio_step_fixes_fixed (acc : PState × List Nat) :
    (rfio_step acc CProp.fixedP).1.fixes
      = set_unfixed acc.1.size acc.1.fixes
          ((getIdx acc.1.constraints CProp.fixedP).filter
            (fun j => (raveled_index acc.1).contains j)) := rfl

theorem rfio_step_fixes_ne (acc : PState × List Nat) (t : CProp)
    (ht : ¬ (t = CProp.fixedP)) :
    (rfio_step acc t).1.fixes = acc.1.fixes := by
  show (if t = CProp.fixedP then _ else acc.1.fixes) = acc.1.fixes
  rw [if_neg ht]

theorem rfio_step_constraints (acc : PState × List Nat) (t : CProp) :
    (rfio_step acc t).1.constraints
      = (store_remove acc.1.constraints t (raveled_index acc.1)).1 := rfl

theorem rfio_step_size (acc : PState × List Nat) (t : CProp) :
    (rfio_step acc t).1.size = acc.1.size := rfl

theorem foldl_rfio_invariant (i : Nat) (ts : List CProp) :
    ∀ acc : PState × List Nat, maskAtB acc.1.fixes i = true →
      i ∉ getIdx acc.1.constraints CProp.fixedP →
      maskAtB (ts.foldl rfio_step acc).1.fixes i = true
        ∧ i ∉ getIdx (ts.foldl rfio_step acc).1.constraints CProp.fixedP := by
  induction ts with
  | nil => intro acc h1 h2; exact ⟨h1, h2⟩
  | cons t rest ih =>
    intro acc h1 h2
    rw [List.foldl_cons]
    apply ih
    · by_cases ht : t = CProp.fixedP
      · subst ht
        rw [rfio_step_fixes_fixed]
        exact set_unfixed_maskAt_preserve _ _ _ i h1
      · rw [rfio_step_fixes_ne acc t ht]
        exact h1
    · rw [rfio_step_constraints]
      intro hmem
      exact h2 (store_remove_mem_rev _ _ _ _ i hmem)

theorem foldl_rfio_notmem (i : Nat) (q : CProp) (ts : List CProp) :
    ∀ acc : PState × List Nat, i ∉ getIdx acc.1.constraints q →
      i ∉ getIdx (ts.foldl rfio_step acc).1.constraints q := by
  induction ts with
  | nil => intro acc h; exact h
  | cons t rest ih =>
    intro acc h
    rw [List.foldl_cons]
    apply ih
    rw [rfio_step_constraints]
    intro hmem
    exact h (store_remove_mem_rev _ _ _ _ i hmem)

theorem foldl_rfio_unfix (i : Nat) (ts : List CProp) :
    ∀ acc : PState × List Nat, CProp.fixedP ∈ ts → i < acc.1.size →
      i ∈ getIdx acc.1.constraints CProp.fixedP →
      maskAtB (ts.foldl rfio_step acc).1.fixes i = true
        ∧ i ∉ getIdx (ts.foldl rfio_step acc).1.constraints CProp.fixedP := by
  induction ts with
  | nil => intro acc h; cases h
  | cons t rest ih =>
    intro acc hmem hsz hidx
    rw [List.foldl_cons]
    by_cases ht : t = CProp.fixedP
    · subst ht
      have hcontains : (raveled_index acc.1).contains i = true :=
        List.elem_iff.mpr (by simpa [raveled_index] using List.mem_range.mpr hsz)
      have hstep1 : maskAtB (rfio_step acc CProp.fixedP).1.fixes i = true := by
        rw [rfio_step_fixes_fixed]
        apply set_unfixed_maskAt_mem
        exact List.mem_filter.mpr ⟨hidx, hcontains⟩
      have hstep2 :
          i ∉ getIdx (rfio_step acc CProp.fixedP).1.constraints CProp.fixedP := by
        rw [rfio_step_constraints]
        exact store_remove_self_notmem _ _ _ i hcontains
      exact foldl_rfio_invariant i rest _ hstep1 hstep2
    · apply ih
      · rcases List.mem_cons.mp hmem with h | h
        · exact absurd h.symm ht
        · exact h
      · rw [rfio_step_size]
        exact hsz
      · rw [rfio_step_constraints]
        exact store_remove_mem_ne _ _ _ _ (fun hc => ht hc.symm) i hidx

theorem foldl_rfio_strips (i : Nat) (q : CProp) (ts : List CProp) :
    ∀ acc : PState × List Nat, q ∈ ts → i < acc.1.size →
      i ∉ getIdx (ts.foldl rfio_step acc).1.constraints q := by
  induction ts with
  | nil => intro acc h; cases h
  | cons t rest ih =>
    intro acc hmem hsz
    rw [List.foldl_cons]
    by_cases ht : t = q
    · subst ht
      have hcontains : (raveled_index acc.1).contains i = true :=
        List.elem_iff.mpr (by simpa [raveled_index] using List.mem_range.mpr hsz)
      apply foldl_rfio_notmem
      rw [rfio_step_constraints]
      exact store_remove_self_notmem _ _ _ i hcontains
    · apply ih
      · rcases List.mem_cons.mp hmem with h | h
        · exact absurd h.symm ht
        · exact h
      · rw [rfio_step_size]
        exact hsz

theorem foldl_rfio_properties (ts : List CProp) :
    ∀ acc : PState × List Nat,
      properties (ts.foldl rfio_step acc).1.constraints
        = properties acc.1.constraints := by
  induction ts with
  | nil => intro acc; rfl
  | cons t rest ih =>
    intro acc
    rw [List.foldl_cons, ih, rfio_step_constraints, store_remove_properties]

/-- C9: `constrain` with any transform strips every property currently
recorded over the node's indices, the fixed sentinel included, so a fixed
index of a root node becomes UNFIXED in the node's own mask (the root being
its own highest parent); only the new transform remains recorded there. -/
theorem constrain_strips_fixed (env : TEnv) (s : PState) (t : Nat) (i : Nat)
    (hi : i < s.size) (hifix : i ∈ getIdx s.constraints CProp.fixedP) :
    maskAtB (constrain env s t).fixes i = true
      ∧ i ∉ getIdx (constrain env s t).constraints CProp.fixedP
      ∧ ∀ q, q ≠ CProp.transform t →
          i ∉ getIdx (constrain env s t).constraints q := by
  have hkey : CProp.fixedP ∈ properties s.constraints := by
    rcases (mem_getIdx s.constraints CProp.fixedP i).mp hifix
      with ⟨ci, hci, hk, _⟩
    exact hk ▸ List.mem_map.mpr ⟨ci, hci, rfl⟩
  have hfix0 : (constrain env s t).fixes
      = ((properties s.constraints).foldl rfio_step
          ({ s with params := s.params.map (env t).tinit }, ([] : List Nat))).1.fixes := rfl
  have hcons0 : (constrain env s t).constraints
      = store_add
          ((properties s.constraints).foldl rfio_step
            ({ s with params := s.params.map (env t).tinit },
              ([] : List Nat))).1.constraints
          (CProp.transform t)
          (raveled_index
            ((properties s.constraints).foldl rfio_step
              ({ s with params := s.params.map (env t).tinit },
                ([] : List Nat))).1) := rfl
  have hmain := foldl_rfio_unfix i (properties s.constraints)
    ({ s with params := s.params.map (env t).tinit }, ([] : List Nat))
    hkey hi hifix
  have hstrip : ∀ q, q ≠ CProp.transform t →
      i ∉ getIdx (constrain env s t).constraints q := by
    intro q hq
    rw [hcons0]
    apply store_add_notmem_ne _ _ _ q hq i
    by_cases hqmem : q ∈ properties s.constraints
    · exact foldl_rfio_strips i q (properties s.constraints) _ hqmem hi
    · have hprops := foldl_rfio_properties (properties s.constraints)
        ({ s with params := s.params.map (env t).tinit }, ([] : List Nat))
      rw [getIdx_eq_nil_of_not_key _ q (by rw [hprops]; exact hqmem)]
      exact List.not_mem_nil i
  refine ⟨?_, ?_, hstrip⟩
  · rw [hfix0]
    exact hmain.1
  · exact hstrip CProp.fixedP (fun hc => by cases hc)

/-- Witness for C9 at the demonstration state, whose index 1 is fixed:
after `constrain` with a fresh transform it is unfixed in the mask and no
longer recorded under the fixed sentinel. -/
theorem constrain_strips_fixed_witness :
    maskAtB (constrain envDemo sDemo 1).fixes 1 = true
      ∧ 1 ∉ getIdx (constrain envDemo sDemo 1).constraints CProp.fixedP :=
  ⟨(constrain_strips_fixed envDemo sDemo 1 1 (by decide) (by decide)).1,
   (constrain_strips_fixed envDemo sDemo 1 1 (by decide) (by decide)).2.1⟩

end GPyFlat

namespace GPyTree

/-- A node of the parameter hierarchy: a `Param` leaf owning a raw buffer,
or a `Parameterized` container holding its stored `size` attribute and its
ordered `_parameters_` list (sizes are updated incrementally by
`add_parameter`/`remove_parameter`, never recomputed). -/
inductive PTree where
  | param (values : List Val) : PTree
  | parameterized (sz : Nat) (children : List PTree) : PTree

/-- `size` of a node: a leaf's buffer length, a container's stored size. -/
def nodeSize : PTree → Nat
  | .param v => v.length
  | .parameterized sz _ => sz

/-- Consistency of a list of trees: every container node in any of the
trees stores a size equal to the sum of its children's sizes. -/
def consistentL : List PTree → Bool
  | [] => true
  | .param _ :: ts => consistentL ts
  | .parameterized sz cs :: ts =>
    (sz == (cs.map nodeSize).sum) && consistentL cs && consistentL ts

/-- Consistency of one tree. -/
def consistent (t : PTree) : Bool := consistentL [t]

/-- Python `list.insert(i, x)`: clamps an index past the end to an append. -/
def pyInsert (l : List PTree) (i : Nat) (a : PTree) : List PTree :=
  l.take i ++ a :: l.drop i

/-- Embeds the structural effect of `Parameterized.add_parameter`
(parameterized.py, lines 92-137) on the container: insert the child into
`_parameters_` (append when no index is given) and grow `size` by the
child's size.  A leaf has no children and is returned unchanged. -/
def add_parameter (t : PTree) (p : PTree) (index : Option Nat) : PTree :=
  match t with
  | .param v => .param v
  | .parameterized sz cs =>
    match index with
    | none => .parameterized (sz + nodeSize p) (cs ++ [p])
    | some i => .parameterized (sz + nodeSize p) (pyInsert cs i p)

/-- Embeds the structural effect of `Parameterized.remove_parameter`
(parameterized.py, lines 147-172) on the container: delete the child at its
parent index and shrink `size` by its size; removing a missing child raises
and leaves the tree unchanged. -/
def remove_parameter (t : PTree) (i : Nat) : PTree :=
  match t with
  | .param v => .param v
  | .parameterized sz cs =>
    match cs[i]? with
    | none => .parameterized sz cs
    | some c => .parameterized (sz - nodeSize c) (cs.eraseIdx i)

/-- The `i`-th direct child of a container. -/
def childAt (t : PTree) (i : Nat) : Option PTree :=
  match t with
  | .param _ => none
  | .parameterized _ cs => cs[i]?

/-- The trees reachable from consistent trees by sequences of
`add_parameter`/`remove_parameter` operations applied at the *root* of a
standalone tree, including every child detached along the way (a removed
child lives on as a standalone tree).  Operations on a *nested* container
are modelled separately by `add_parameter_at`/`remove_parameter_at` below,
because the source updates only the operated-on container's own `size` and
no ancestor's - they are deliberately not part of this relation, since
they break the size invariant. -/
inductive Reachable : PTree → Prop
  | base (t : PTree) : consistent t = true → Reachable t
  | addP (t c : PTree) (i : Option Nat) :
      Reachable t → Reachable c → Reachable (add_parameter t c i)
  | removeP (t : PTree) (i : Nat) :
      Reachable t → Reachable (remove_parameter t i)
  | child (t : PTree) (i : Nat) (c : PTree) :
      Reachable t → childAt t i = some c → Reachable c

theorem consistentL_cons (c : PTree) (ts : List PTree) :
    consistentL (c :: ts) = (consistent c && consistentL ts) := by
  cases c with
  | param v => simp [consistentL, consistent]
  | parameterized sz cs =>
    simp [consistentL, consistent, Bool.and_assoc]

theorem consistentL_iff (ts : List PTree) :
    consistentL ts = true ↔ ∀ c ∈ ts, consistent c = true := by
  induction ts with
  | nil => simp [consistentL]
  | cons c ts ih =>
    rw [consistentL_cons]
    simp [Bool.and_eq_true, ih]

theorem consistent_parameterized (sz : Nat) (cs : List PTree) :
    consistent (PTree.parameterized sz cs) = true
      ↔ sz = (cs.map nodeSize).sum ∧ ∀ c ∈ cs, consistent c = true := by
  show consistentL [PTree.parameterized sz cs] = true ↔ _
  simp [consistentL, Bool.and_eq_true, beq_iff_eq, consistentL_iff]

theorem sum_map_pyInsert (cs : List PTree) (i : Nat) (p : PTree) :
    ((pyInsert cs i p).map nodeSize).sum
      = (cs.map nodeSize).sum + nodeSize p := by
  unfold pyInsert
  rw [List.map_append, List.map_cons, List.sum_append, List.sum_cons]
  have h := congrArg (fun l => (List.map nodeSize l).sum)
    (List.take_append_drop i cs)
  simp only [List.map_append, List.sum_append] at h
  omega

theorem mem_pyInsert (cs : List PTree) (i : Nat) (p c : PTree)
    (h : c ∈ pyInsert cs i p) : c = p ∨ c ∈ cs := by
  unfold pyInsert at h
  rcases List.mem_append.mp h with h1 | h2
  · exact Or.inr ((List.take_sublist i cs).subset h1)
  · rcases List.mem_cons.mp h2 with h3 | h4
    · exact Or.inl h3
    · exact Or.inr ((List.drop_sublist i cs).subset h4)

theorem sum_map_eraseIdx (cs : List PTree) (i : Nat) (c : PTree)
    (h : cs[i]? = some c) :
    (cs.map nodeSize).sum
      = nodeSize c + ((cs.eraseIdx i).map nodeSize).sum := by
  induction cs generalizing i with
  | nil => cases h
  | cons a t ih =>
    cases i with
    | zero =>
      have hac : a = c := by simpa using h
      subst hac
      simp [List.eraseIdx]
    | succ n =>
      have ht : t[n]? = some c := by simpa using h
      have := ih n ht
      simp only [List.eraseIdx, List.map_cons, List.sum_cons]
      omega

theorem add_parameter_consistent (t p : PTree) (i : Option Nat)
    (ht : consistent t = true) (hp : consistent p = true) :
    consistent (add_parameter t p i) = true := by
  cases t with
  | param v => exact ht
  | parameterized sz cs =>
    rcases (consistent_parameterized sz cs).mp ht with ⟨hsz, hall⟩
    cases i with
    | none =>
      apply (consistent_parameterized _ _).mpr
      constructor
      · rw [List.map_append, List.sum_append]
        simp [hsz, nodeSize]
      · intro c hc
        rcases List.mem_append.mp hc with h | h
        · exact hall c h
        · rw [List.mem_singleton.mp h]
          exact hp
    | some k =>
      apply (consistent_parameterized _ _).mpr
      refine ⟨by rw [sum_map_pyInsert, hsz], ?_⟩
      intro c hc
      rcases mem_pyInsert cs k p c hc with rfl | h
      · exact hp
      · exact hall c h

theorem remove_parameter_consistent (t : PTree) (i : Nat)
    (ht : consistent t = true) :
    consistent (remove_parameter t i) = true := by
  cases t with
  | param v => exact ht
  | parameterized sz cs =>
    rcases (consistent_parameterized sz cs).mp ht with ⟨hsz, hall⟩
    cases hg : cs[i]? with
    | none => simpa [remove_parameter, hg] using ht
    | some c =>
      have hres : remove_parameter (PTree.parameterized sz cs) i
          = PTree.parameterized (sz - nodeSize c) (cs.eraseIdx i) := by
        simp [remove_parameter, hg]
      rw [hres]
      apply (consistent_parameterized _ _).mpr
      constructor
      · have hsum := sum_map_eraseIdx cs i c hg
        omega
      · intro d hd
        exact hall d (List.mem_of_mem_eraseIdx hd)

theorem childAt_consistent (t : PTree) (i : Nat) (c : PTree)
    (ht : consistent t = true) (hc : childAt t i = some c) :
    consistent c = true := by
  cases t with
  | param v => cases hc
  | parameterized sz cs =>
    rcases (consistent_parameterized sz cs).mp ht with ⟨_, hall⟩
    exact hall c (List.getElem?_mem hc)

theorem reachable_consistent (t : PTree) (h : Reachable t) :
    consistent t = true := by
  induction h with
  | base t ht => exact ht
  | addP t c i ht hc iht ihc => exact add_parameter_consistent t c i iht ihc
  | removeP t i ht iht => exact remove_parameter_consistent t i iht
  | child t i c ht hc iht => exact childAt_consistent t i c iht hc

mutual

/-- Embeds calling `add_parameter` on the *nested* container addressed by
`path` (a chain of child positions) inside a larger tree.  The Python call
mutates the addressed object in place: `add_parameter` updates only
`self.size` (parameterized.py, line 131) and has no ancestor cascade at
all, so every ancestor along `path` keeps its stored size unchanged - only
its children list is rewired. -/
def add_parameter_at : PTree → List Nat → PTree → Option Nat → PTree
  | t, [], p, idx => add_parameter t p idx
  | .param v, _ :: _, _, _ => .param v
  | .parameterized sz cs, j :: rest, p, idx =>
    .parameterized sz (addChildrenAt cs j rest p idx)

/-- Apply `add_parameter_at` to the `j`-th element of a children list. -/
def addChildrenAt : List PTree → Nat → List Nat → PTree → Option Nat →
    List PTree
  | [], _, _, _, _ => []
  | c :: cs, 0, rest, p, idx => add_parameter_at c rest p idx :: cs
  | c :: cs, j + 1, rest, p, idx => c :: addChildrenAt cs j rest p idx

end

mutual

/-- Embeds calling `remove_parameter` on the *nested* container addressed
by `path`.  The source decrements only `self.size` (parameterized.py, line
156); the ancestor cascade at lines 167-172 calls only `_connect_fixes`,
`_connect_parameters` and `_notify_parent_change`, none of which writes
`size`, so every ancestor along `path` keeps its stored size unchanged. -/
def remove_parameter_at : PTree → List Nat → Nat → PTree
  | t, [], i => remove_parameter t i
  | .param v, _ :: _, _ => .param v
  | .parameterized sz cs, j :: rest, i =>
    .parameterized sz (removeChildrenAt cs j rest i)

/-- Apply `remove_parameter_at` to the `j`-th element of a children list. -/
def removeChildrenAt : List PTree → Nat → List Nat → Nat → List PTree
  | [], _, _, _ => []
  | c :: cs, 0, rest, i => remove_parameter_at c rest i :: cs
  | c :: cs, j + 1, rest, i => c :: removeChildrenAt cs j rest i

end

/-- A consistent one-leaf container of size 2. -/
def demoTree : PTree := .parameterized 2 [.param [1, 1]]

theorem demoTree_consistent : consistent demoTree = true := by
  apply (consistent_parameterized 2 [.param [1, 1]]).mpr
  refine ⟨by simp [nodeSize], ?_⟩
  intro c hc
  rw [List.mem_singleton.mp hc]
  simp [consistent, consistentL]

/-- A consistent two-level tree: root (size 2) over container A (size 2)
over a two-entry leaf. -/
def nestedDemo : PTree := .parameterized 2 [.parameterized 2 [.param [1, 1]]]

/-- C1 counterexample: one `remove_parameter` (or `add_parameter`) on the
nested container A of a consistent root-over-A-over-leaf tree updates only
A's size, leaving the root's stored size stale, so the root - a container
reachable by a single operation from a consistent tree - no longer equals
the sum of its children's sizes. -/
theorem nested_ops_stale_size_cex :
    consistent nestedDemo = true
      ∧ consistent (remove_parameter_at nestedDemo [0] 0) = false
      ∧ remove_parameter_at nestedDemo [0] 0
          = PTree.parameterized 2 [.parameterized 0 []]
      ∧ consistent (add_parameter_at nestedDemo [0] (.param [7]) none)
          = false
      ∧ add_parameter_at nestedDemo [0] (.param [7]) none
          = PTree.parameterized 2
              [.parameterized 3 [.param [1, 1], .param [7]]] := by
  refine ⟨?_, ?_, ?_, ?_, ?_⟩
  · simp [nestedDemo, consistent, consistentL, nodeSize]
  · simp [nestedDemo, remove_parameter_at, removeChildrenAt,
      remove_parameter, consistent, consistentL, nodeSize, List.eraseIdx]
  · simp [nestedDemo, remove_parameter_at, removeChildrenAt,
      remove_parameter, nodeSize, List.eraseIdx]
  · simp [nestedDemo, add_parameter_at, addChildrenAt, add_parameter,
      consistent, consistentL, nodeSize]
  · simp [nestedDemo, add_parameter_at, addChildrenAt, add_parameter,
      nodeSize]

/-- C1 amended: the size invariant (every container's stored size equals
the sum of its children's sizes) is preserved by any sequence of
`add_parameter`/`remove_parameter` operations applied at the *root* of a
standalone tree; but either operation applied to a *nested* container
updates only that container's own size - the enclosing tree's root keeps
its stored size unchanged even though its subtree's total changed - so the
invariant fails for the ancestors of the operated-on container. -/
theorem size_invariant_root_ops (t : PTree) (h : Reachable t) :
    consistent t = true
      ∧ (∀ (j : Nat) (rest : List Nat) (p : PTree) (idx : Option Nat),
          nodeSize (add_parameter_at t (j :: rest) p idx) = nodeSize t)
      ∧ (∀ (j : Nat) (rest : List Nat) (i : Nat),
          nodeSize (remove_parameter_at t (j :: rest) i) = nodeSize t) := by
  refine ⟨reachable_consistent t h, ?_, ?_⟩
  · intro j rest p idx
    cases t <;> simp [add_parameter_at, nodeSize]
  · intro j rest i
    cases t <;> simp [remove_parameter_at, nodeSize]

/-- Witness for C1's amended statement: attaching a fresh size-3 leaf at
the root of the demonstration container yields a consistent tree (size
5 = 2 + 3), while a nested operation on it would leave its root size at
5. -/
theorem size_invariant_root_ops_witness :
    consistent (add_parameter demoTree (.param [5, 5, 5]) none) = true :=
  (size_invariant_root_ops _
    (Reachable.addP demoTree (.param [5, 5, 5]) none
      (Reachable.base demoTree demoTree_consistent)
      (Reachable.base _ (by simp [consistent, consistentL])))).1

end GPyTree

namespace GPyStores

open GPyFlat

/-- A node's handle on an index-operations structure: a real store (root or
detached node) or a view `(offset, size)` into the former root's store. -/
inductive StoreRef (κ : Type) where
  | real (s : IndexStore κ) : StoreRef κ
  | view (offset : Nat) (sz : Nat) : StoreRef κ
deriving DecidableEq

/-- The state `remove_parameter` reads and writes on the child being
detached: its two store handles, the parent pointer flag, and whether the
container is still registered as the child's observer. -/
structure ChildState where
  constraints : StoreRef CProp
  priors : StoreRef Nat
  hasParentB : Bool
  observerRegistered : Bool
deriving DecidableEq

/-- The detaching container's (root's) side: its real constraint and prior
stores and its stored size. -/
structure ContainerState where
  constraints : IndexStore CProp
  priors : IndexStore Nat
  size : Nat
deriving DecidableEq

/-- Modelled from the spec: clearing a view removes the window's indices
from the base store (a view forwards every operation to its base after
translating indices). -/
def clearRange {κ : Type} (st : IndexStore κ) (offset sz : Nat) :
    IndexStore κ :=
  st.map (fun ci =>
    (ci.1, ci.2.filter (fun i => !(offset ≤ i && i < offset + sz))))

/-- Modelled from the spec: copying a view materialises a real store from
the window, re-based to offset 0. -/
def copyView {κ : Type} (st : IndexStore κ) (offset sz : Nat) :
    IndexStore κ :=
  st.map (fun ci =>
    (ci.1, (ci.2.filter (fun i => offset ≤ i && i < offset + sz)).map
      (fun i => i - offset)))

/-- Modelled from the spec: `shift_left(start, amount)` renumbers every
recorded index `≥ start` down by `amount`. -/
def shift_left {κ : Type} (st : IndexStore κ) (start amount : Nat) :
    IndexStore κ :=
  st.map (fun ci =>
    (ci.1, ci.2.map (fun i => if start ≤ i then i - amount else i)))

/-- Embeds `Constrainable._disconnect_parent` (parameter_core.py, lines
181-189): copy the child's constraints view into a real store
(`self.constraints.copy()`), clear the view - which removes the window's
indices from the base store - and drop the parent pointer.  The child's
priors handle is not touched by the source. -/
def disconnect_parent (parentC : IndexStore CProp) (start sz : Nat)
    (child : ChildState) : IndexStore CProp × ChildState :=
  (clearRange parentC start sz,
   { child with
      constraints := StoreRef.real (copyView parentC start sz)
      hasParentB := false })

/-- Embeds `Parameterized.remove_parameter` (parameterized.py, lines
147-172) restricted to its store, size, parent and observer effects, for a
root container and a direct child occupying `[start, start + sz)`: the
child is disconnected, the container drops its observer registration on the
child, shrinks its size, and shifts its constraints (only) left by the
child's size at the child's former offset.  The priors stores appear
nowhere in the source of `remove_parameter` or `_disconnect_parent`. -/
def remove_parameter_full (parent : ContainerState) (child : ChildState)
    (start sz : Nat) : ContainerState × ChildState :=
  let d := disconnect_parent parent.constraints start sz child
  ({ parent with
      constraints := shift_left d.1 start sz
      size := parent.size - sz },
   { d.2 with observerRegistered := false })

/-- A container with one transform index inside the child window and one
after it, and one prior index inside the window and one after it. -/
def parentDemo : ContainerState :=
  { constraints := [(CProp.transform 0, [0, 2])]
    priors := [(5, [1, 3])]
    size := 4 }

/-- The child at offset 0, size 2, holding views into the root's stores. -/
def childDemo : ChildState :=
  { constraints := StoreRef.view 0 2
    priors := StoreRef.view 0 2
    hasParentB := true
    observerRegistered := true }

/-- C5 counterexample: detaching the size-2 child leaves the child's priors
handle a *view* into the former root (not a real store copied out of the
view) and the container's prior indices unshifted (index 3 stays 3, though
the claim requires it to become 1); the constraints side, by contrast, is
copied and shifted. -/
theorem remove_parameter_priors_cex :
    (remove_parameter_full parentDemo childDemo 0 2).2.priors
        ≠ StoreRef.real (copyView parentDemo.priors 0 2)
      ∧ (remove_parameter_full parentDemo childDemo 0 2).1.priors
        ≠ shift_left (clearRange parentDemo.priors 0 2) 0 2
      ∧ (remove_parameter_full parentDemo childDemo 0 2).2.priors
        = StoreRef.view 0 2
      ∧ (remove_parameter_full parentDemo childDemo 0 2).1.priors
        = [(5, [1, 3])]
      ∧ (remove_parameter_full parentDemo childDemo 0 2).2.constraints
        = StoreRef.real [(CProp.transform 0, [0])]
      ∧ (remove_parameter_full parentDemo childDemo 0 2).1.constraints
        = [(CProp.transform 0, [0])] := by
  decide

/-- C5 amended: `remove_parameter` fully disconnects the child's
*constraints* - fresh real store copied out of the shared view, parent
pointer cleared, observer unregistered - and shifts the container's
remaining *constraint* indices left by the child's size at the child's
former offset; the child's *priors* handle however remains the former view
and the container's prior indices are not shifted (the source never touches
the priors store on removal). -/
theorem remove_parameter_spec (parent : ContainerState) (child : ChildState)
    (start sz : Nat) :
    (remove_parameter_full parent child start sz).2.hasParentB = false
      ∧ (remove_parameter_full parent child start sz).2.observerRegistered
          = false
      ∧ (remove_parameter_full parent child start sz).2.constraints
          = StoreRef.real (copyView parent.constraints start sz)
      ∧ (remove_parameter_full parent child start sz).1.constraints
          = shift_left (clearRange parent.constraints start sz) start sz
      ∧ (remove_parameter_full parent child start sz).1.size
          = parent.size - sz
      ∧ (remove_parameter_full parent child start sz).2.priors = child.priors
      ∧ (remove_parameter_full parent child start sz).1.priors
          = parent.priors :=
  ⟨rfl, rfl, rfl, rfl, rfl, rfl, rfl⟩

end GPyStores

namespace GPyHier

/-- A node of the object hierarchy, identified by id, with its ordered
children (the attach/detach machinery only needs identity and shape). -/
inductive HTree where
  | mk (nid : Nat) (children : List HTree) : HTree

/-- The id of a node. -/
def hid : HTree → Nat
  | .mk i _ => i

/-- Does any tree of the list contain a node with id `p`? -/
def hasIdL : List HTree → Nat → Bool
  | [], _ => false
  | .mk i cs :: ts, p => i == p || hasIdL cs p || hasIdL ts p

/-- Does the subtree rooted at `t` contain a node with id `p`? -/
def hasId (t : HTree) (p : Nat) : Bool := hasIdL [t] p

/-- Is `p` the id of a direct child in this list? -/
def childrenHave (ts : List HTree) (p : Nat) : Bool :=
  ts.any (fun t => hid t == p)

/-- The id of the direct parent of node `p` in the forest
(`_direct_parent_`), `none` for a root. -/
def parentOfL : List HTree → Nat → Option Nat
  | [], _ => none
  | .mk i cs :: ts, p =>
    if childrenHave cs p then some i
    else
      match parentOfL cs p with
      | some q => some q
      | none => parentOfL ts p

/-- Total node count, used as fuel for the ancestor walk. -/
def countNodes : List HTree → Nat
  | [] => 0
  | .mk _ cs :: ts => 1 + countNodes cs + countNodes ts

/-- The `while parent is not None` walk of `add_parameter`: the chain of
ancestor ids of `q` starting from its direct parent. -/
def ancestorChain (roots : List HTree) : Nat → Nat → List Nat
  | 0, _ => []
  | fuel + 1, q =>
    match parentOfL roots q with
    | none => []
    | some r => r :: ancestorChain roots fuel r

/-- All ancestor ids of `p`, from direct parent upward. -/
def ancestorIds (roots : List HTree) (p : Nat) : List Nat :=
  ancestorChain roots (countNodes roots) p

/-- The children list of the node with id `s`, if `s` is in the forest. -/
def childrenOfL : List HTree → Nat → Option (List HTree)
  | [], _ => none
  | .mk i cs :: ts, s =>
    if i == s then some cs
    else
      match childrenOfL cs s with
      | some r => some r
      | none => childrenOfL ts s

/-- `param in self._parameters_`: is `p` a direct child of node `s`? -/
def isDirectChild (roots : List HTree) (s p : Nat) : Bool :=
  match childrenOfL roots s with
  | some cs => childrenHave cs p
  | none => false

/-- Remove the subtree rooted at the node with id `p` from the forest,
returning the remaining forest and the extracted subtree
(`param._direct_parent_.remove_parameter(param)`). -/
def extractL : List HTree → Nat → List HTree × Option HTree
  | [], _ => ([], none)
  | .mk i cs :: ts, p =>
    if i == p then (ts, some (.mk i cs))
    else
      match extractL cs p with
      | (cs1, some x) => (.mk i cs1 :: ts, some x)
      | (_, none) =>
        match extractL ts p with
        | (ts1, r) => (.mk i cs :: ts1, r)

/-- Python `list.insert(i, x)`: clamps an index past the end to an append. -/
def pyInsertH (l : List HTree) (i : Nat) (a : HTree) : List HTree :=
  l.take i ++ a :: l.drop i

/-- Insert `c` into the children of the node with id `s` (append when no
index is given; `self._parameters_.insert(index, param)` otherwise). -/
def attachUnder : List HTree → Nat → HTree → Option Nat → List HTree
  | [], _, _, _ => []
  | .mk i cs :: ts, s, c, idx =>
    if i == s then
      .mk i
        (match idx with
         | none => cs ++ [c]
         | some k => pyInsertH cs k c) :: ts
    else .mk i (attachUnder cs s c idx) :: attachUnder ts s c idx

/-- The outcome of `add_parameter`: which exception was raised (carrying
the untouched forest, since the raise precedes every mutation), a
successfully updated forest, or `cyclic` - the embedding's marker for the
case where the insertion target lies inside the moved subtree, so the
Python objects end up in a parent-cycle no tree can represent. -/
inductive AddResult where
  | hierarchyErr (roots : List HTree) : AddResult
  | runtimeErr (roots : List HTree) : AddResult
  | cyclic : AddResult
  | ok (roots : List HTree) : AddResult

/-- Embeds the control flow of `Parameterized.add_parameter`
(parameterized.py, lines 92-137; duplicated as
`Parameterizable.add_parameter`, parameter_core.py, lines 480-524), with
`self` the node with id `s` and `param` the node with id `p`:

1. `param in self._parameters_ and index is not None` - reposition
   (`remove_parameter` then re-add at `index`);
2. `param not in self._parameters_` - when `param` has a parent, walk
   `param`'s ancestor chain and raise `HierarchyError` when `self` appears
   in it, otherwise detach `param` and insert it under `self`;
3. otherwise - raise `RuntimeError`. -/
def add_parameter_h (roots : List HTree) (s p : Nat) (index : Option Nat) :
    AddResult :=
  if isDirectChild roots s p then
    match index with
    | some k =>
      match extractL roots p with
      | (roots1, some t) =>
        if hasId t s then AddResult.cyclic
        else AddResult.ok (attachUnder roots1 s t (some k))
      | (_, none) => AddResult.ok roots
    | none => AddResult.runtimeErr roots
  else
    match parentOfL roots p with
    | some _ =>
      if (ancestorIds roots p).contains s then AddResult.hierarchyErr roots
      else
        match extractL roots p with
        | (roots1, some t) =>
          if hasId t s then AddResult.cyclic
          else AddResult.ok (attachUnder roots1 s t index)
        | (_, none) => AddResult.ok roots
    | none =>
      match extractL roots p with
      | (roots1, some t) =>
        if hasId t s then AddResult.cyclic
        else AddResult.ok (attachUnder roots1 s t index)
      | (_, none) => AddResult.ok roots

/-- Container 0 with a single child 1: node 1 is a descendant of node 0. -/
def cycTree : HTree := .mk 0 [.mk 1 []]

/-- C6 counterexample: attaching node 0 as a child of its own descendant
node 1 does *not* raise `HierarchyError` - node 0 is a root, so the
`param.has_parent()` guard skips the ancestor walk entirely and the
insertion goes ahead, producing a cyclic object graph (marked `cyclic` in
the embedding). -/
theorem add_parameter_cycle_cex :
    add_parameter_h [cycTree] 1 0 none = AddResult.cyclic
      ∧ add_parameter_h [cycTree] 1 0 none
          ≠ AddResult.hierarchyErr [cycTree]
      ∧ hasId cycTree 1 = true := by
  have h1 : add_parameter_h [cycTree] 1 0 none = AddResult.cyclic := by
    simp [add_parameter_h, cycTree, isDirectChild, childrenOfL, childrenHave,
      parentOfL, extractL, hasId, hasIdL, hid]
  refine ⟨h1, ?_, by simp [hasId, hasIdL, cycTree]⟩
  rw [h1]
  intro h
  cases h

theorem attach_branch_ne_hierarchyErr (roots : List HTree) (s : Nat)
    (index : Option Nat) (pr : List HTree × Option HTree)
    (roots0 : List HTree) :
    (match pr with
      | (roots1, some t) =>
        if hasId t s then AddResult.cyclic
        else AddResult.ok (attachUnder roots1 s t index)
      | (_, none) => AddResult.ok roots0)
      ≠ AddResult.hierarchyErr roots := by
  rcases pr with ⟨roots1, _ | t⟩
  · intro h; cases h
  · show (if hasId t s then AddResult.cyclic
        else AddResult.ok (attachUnder roots1 s t index))
      ≠ AddResult.hierarchyErr roots
    by_cases hc : hasId t s = true
    · rw [if_pos hc]
      intro h; cases h
    · rw [if_neg hc]
      intro h; cases h

/-- C6 amended: `add_parameter` raises `HierarchyError` exactly when the
node is not a direct child of the container, currently has a parent, and
the container appears in the node's ancestor chain (i.e. the node is
already attached strictly deeper in the container's own subtree); and in
that case the forest is returned untouched (the raise precedes every
mutation).  Attaching a container as a child of its own descendant is not
detected, and re-adding a direct child without an index raises
`RuntimeError`, not `HierarchyError`. -/
theorem add_parameter_hierarchy_err_iff (roots : List HTree) (s p : Nat)
    (index : Option Nat) :
    add_parameter_h roots s p index = AddResult.hierarchyErr roots
      ↔ isDirectChild roots s p = false
        ∧ (parentOfL roots p).isSome = true
        ∧ (ancestorIds roots p).contains s = true := by
  unfold add_parameter_h
  by_cases h1 : isDirectChild roots s p = true
  · rw [if_pos h1]
    constructor
    · intro h
      cases index with
      | some k =>
        exact absurd h
          (attach_branch_ne_hierarchyErr roots s (some k) (extractL roots p)
            roots)
      | none => cases h
    · rintro ⟨hfalse, -, -⟩
      rw [h1] at hfalse
      cases hfalse
  · rw [if_neg h1]
    have h1f : isDirectChild roots s p = false := by
      cases hd : isDirectChild roots s p
      · rfl
      · exact absurd hd h1
    cases hp : parentOfL roots p with
    | none =>
      constructor
      · intro h
        exact absurd h
          (attach_branch_ne_hierarchyErr roots s index (extractL roots p)
            roots)
      · rintro ⟨-, hsome, -⟩
        simp at hsome
    | some q =>
      by_cases hanc : (ancestorIds roots p).contains s = true
      · rw [if_pos hanc]
        exact ⟨fun _ => ⟨h1f, rfl, hanc⟩, fun _ => rfl⟩
      · rw [if_neg hanc]
        constructor
        · intro h
          exact absurd h
            (attach_branch_ne_hierarchyErr roots s index (extractL roots p)
              roots)
        · rintro ⟨-, -, hc⟩
          exact absurd hc hanc

end GPyHier
